import Mathlib

/-!
# sundae lexer: token classification and scanning

A shallow embedding of `src/sundae/lexer.h` and `src/sundae/lexer.cc`.

* A `std::string` is a `List Char`; every `Char` stands for one `char` of the
  string, identified by its code (0..255).
* `<cctype>` predicates are those of the default "C" locale.
* `last_position_` and `current_position_` are `int` in the source; they never
  exceed the buffer length, so they are unbounded naturals here (buffers are
  shorter than `2^31` characters).
* `exit(EXIT_FAILURE)` after printing `undefined token: '<value>'` is the
  `Except.error <value>` result of `Tokenise`.
-/

namespace sundae

namespace lexer

/-- The type `std::string`: a sequence of `char`. -/
abbrev Str := List Char

/-- The `<cctype>` function `isdigit` (C locale). -/
def isdigit (ch : Char) : Bool :=
  decide (48 ≤ ch.toNat) && decide (ch.toNat ≤ 57)

/-- The `<cctype>` function `isxdigit` (C locale). -/
def isxdigit (ch : Char) : Bool :=
  isdigit ch || (decide (97 ≤ ch.toNat) && decide (ch.toNat ≤ 102)) ||
    (decide (65 ≤ ch.toNat) && decide (ch.toNat ≤ 70))

/-- The `<cctype>` function `isalpha` (C locale). -/
def isalpha (ch : Char) : Bool :=
  (decide (97 ≤ ch.toNat) && decide (ch.toNat ≤ 122)) ||
    (decide (65 ≤ ch.toNat) && decide (ch.toNat ≤ 90))

/-- The `<cctype>` function `isalnum` (C locale). -/
def isalnum (ch : Char) : Bool :=
  isalpha ch || isdigit ch

/-- The `<cctype>` function `isspace` (C locale): space, `\t`, `\n`, `\v`, `\f`, `\r`. -/
def isspace (ch : Char) : Bool :=
  decide (ch.toNat = 32) || (decide (9 ≤ ch.toNat) && decide (ch.toNat ≤ 13))

/-- Conversion of an `int` to `char`: the value modulo `2^8`. -/
def intToChar (n : Nat) : Char :=
  Char.ofNat (n % 256)

/-- The special keywords: `std::array<std::string, 6>` with five initialisers,
so the sixth element is the empty string. -/
def kKeywords : List Str :=
  [['p', 'u', 'b'], ['c', 'o', 'n', 's', 't'], ['s', 't', 'r', 'u', 'c', 't'],
   ['e', 'n', 'u', 'm'], ['u', 's', 'e'], []]

/-- The separators: `(`, `)`, the two braces and `,`. -/
def kBreakers : List Str :=
  [['('], [')'], [Char.ofNat 123], [Char.ofNat 125], [',']]

/-- The operators `:=`, `=`, `+`, `-`, `*`, `/`. -/
def kOperators : List Str :=
  [[':', '='], ['='], ['+'], ['-'], ['*'], ['/']]

/-- The bounds for comments: (`//`, newline) and (`/*`, `*/`). -/
def kCommentPairs : List (Str × Str) :=
  [(['/', '/'], ['\n']), (['/', '*'], ['*', '/'])]

/-- The two boolean literal expressions. -/
def kBoolValues : Str × Str :=
  (['t', 'r', 'u', 'e'], ['f', 'a', 'l', 's', 'e'])

/-- The bound for string literals, the single quote (code 39). -/
def kStringBound : Char := Char.ofNat 39

/-- The bound for rune literals, the grave accent (code 96). -/
def kRuneBound : Char := Char.ofNat 96

/-- The backslash character (code 92). -/
def kBackslash : Char := Char.ofNat 92

inductive TokenType where
  | kKeyword
  | kBreaker
  | kOperator
  | kLiteral
  | kIdentifier
  | kNewline
  | kComment
  deriving DecidableEq

/-- The identifier branches (with the identifier itself). -/
def kIdentifierBranches : List TokenType :=
  [TokenType.kIdentifier, TokenType.kKeyword]

namespace utils

/-- The overload `StartsWith(std::string, char)`: `haystack.compare(0, 1, needle) == 0`. -/
def StartsWithChar (haystack : Str) (needle : Char) : Bool :=
  decide (haystack.take 1 = [needle])

/-- The overload `EndsWith(std::string, char)`:
`haystack.compare(haystack.length() - 1, 1, needle) == 0`. On the empty
haystack the source throws `std::out_of_range`; every call from `GetType` is
guarded by a length test, and the model answers `false` there. -/
def EndsWithChar (haystack : Str) (needle : Char) : Bool :=
  decide ((haystack.drop (haystack.length - 1)).take 1 = [needle])

/-- The overload `StartsWith(std::string, std::string)`:
`haystack.compare(0, needle.length(), needle) == 0`. -/
def StartsWith (haystack needle : Str) : Bool :=
  decide (haystack.take needle.length = needle)

/-- The overload `EndsWith(std::string, std::string)`:
`haystack.compare(haystack.length() - needle.length(), needle.length(), needle) == 0`.
On a haystack shorter than the needle the source throws `std::out_of_range`;
every call from `GetType` follows a successful `StartsWith` with a two-character
opener, and the model answers `false` there. -/
def EndsWith (haystack needle : Str) : Bool :=
  decide (needle.length ≤ haystack.length) &&
    decide ((haystack.drop (haystack.length - needle.length)).take needle.length = needle)

/-- Returns whether the given predicate passes for any comment pair. -/
def AnyOfCommentPair (pred : Str × Str → Bool) : Bool :=
  kCommentPairs.any pred

/-- Returns whether the haystack array includes the element needle. -/
def Includes {T : Type} [DecidableEq T] (haystack : List T) (needle : T) : Bool :=
  decide (needle ∈ haystack)

/-- The call of `std::all_of` over the characters with `ch == '_' || predicate(ch)`. -/
def EveryCharIsUnderscoreOr (value : Str) (predicate : Char → Bool) : Bool :=
  value.all (fun ch => decide (ch = '_') || predicate ch)

/-- The fold `((first == t) || ...)`. -/
def IsIn {T : Type} [DecidableEq T] (first : T) (t : List T) : Bool :=
  t.any (fun x => decide (first = x))

end utils

/-- The lambda `has_literal_bound` of `GetType`. The last conjunct passes
`'\\' + delim` to `EndsWith`: an `int` sum of two `char`s, converted back to
`char` by the only viable overload `EndsWith(std::string, char)`. -/
def has_literal_bound (expression : Str) (delim : Char) : Bool :=
  decide (expression.length > 1) && utils.StartsWithChar expression delim &&
    utils.EndsWithChar expression delim &&
    !utils.EndsWithChar expression (intToChar (kBackslash.toNat + delim.toNat))

/-- The lambda `has_special_number_bound` of `GetType`. -/
def has_special_number_bound (expression : Str) (initial_pattern : Str)
    (predicate : Char → Bool) : Bool :=
  utils.StartsWith expression initial_pattern &&
    utils.EveryCharIsUnderscoreOr (expression.drop 2) predicate

/-- The condition of the first branch of `GetType` (the literal rules). -/
def isLiteral (expression : Str) : Bool :=
  has_literal_bound expression kStringBound ||
  has_literal_bound expression kRuneBound ||
  utils.IsIn expression [kBoolValues.1, kBoolValues.2] ||
  (utils.EveryCharIsUnderscoreOr expression isdigit ||
   (utils.EveryCharIsUnderscoreOr expression
      (fun ch => isdigit ch || utils.IsIn ch ['.', 'E', '+']) &&
    decide (expression.count '.' = 1)) ||
   (has_special_number_bound expression ['0', 'b'] (fun ch => utils.IsIn ch ['0', '1']) ||
    has_special_number_bound expression ['0', 'o']
      (fun ch => utils.IsIn ch ['0', '1', '2', '3', '4', '5', '6', '7']) ||
    has_special_number_bound expression ['0', 'x'] isxdigit))

/-- The classifier `GetType` of `lexer.cc`. -/
def GetType (expression : Str) : Option TokenType :=
  if isLiteral expression then some TokenType.kLiteral
  else if utils.Includes kKeywords expression then some TokenType.kKeyword
  else if utils.EveryCharIsUnderscoreOr expression isalnum then some TokenType.kIdentifier
  else if utils.Includes kOperators expression then some TokenType.kOperator
  else if utils.Includes kBreakers expression then some TokenType.kBreaker
  else if expression = ['\n'] then some TokenType.kNewline
  else if utils.AnyOfCommentPair (fun pair =>
      utils.StartsWith expression pair.1 && utils.EndsWith expression pair.2) then
    some TokenType.kComment
  else none

structure Token where
  value : Str
  type : TokenType
  position : Nat × Nat
  deriving DecidableEq

structure Lexer where
  buffer_ : Str
  last_position_ : Nat
  current_position_ : Nat
  collected_ : List Token
  deriving DecidableEq

namespace Lexer

/-- The constructor `Lexer::Lexer(std::string)`. -/
def new (buffer : Str) : Lexer :=
  { buffer_ := buffer, last_position_ := 0, current_position_ := 0, collected_ := [] }

/-- Returns a buffer slice from last_pos to provided next_position. If out of
bounds, returns an empty option. -/
def Seek (lx : Lexer) (next_position : Nat) : Option Str :=
  if next_position < lx.buffer_.length then
    some ((lx.buffer_.drop lx.last_position_).take (next_position - lx.last_position_ + 1))
  else none

/-- The dereference `*Seek(current_position_)`; inside the scanning loop the option holds a value. -/
def CurrentState (lx : Lexer) : Str :=
  (lx.Seek lx.current_position_).getD []

/-- The call `Seek(current_position_ + 1)`. -/
def NextState (lx : Lexer) : Option Str :=
  lx.Seek (lx.current_position_ + 1)

/-- The lambda `update_pos` of `Tokenise`. -/
def update_pos (lx : Lexer) : Lexer :=
  { lx with last_position_ := lx.current_position_ + 1 }

/-- The condition of the whitespace-skipping branch of `Tokenise`. -/
def skips (lx : Lexer) : Bool :=
  let c := lx.buffer_.getD lx.current_position_ default
  decide (c ≠ '\n') && isspace c && decide (lx.last_position_ = lx.current_position_)

/-- The statements "Dispatch new token" of `Tokenise`. -/
def dispatch (lx : Lexer) (current : Str) (current_type : TokenType) : Lexer :=
  let token : Token :=
    { value := current, type := current_type,
      position := (lx.last_position_, lx.current_position_) }
  { lx.update_pos with collected_ := lx.collected_ ++ [token] }

/-- One pass through the body of the `for` loop of `Tokenise` (without the
increment); `Except.error` is the `exit(EXIT_FAILURE)` carrying the printed value. -/
def body (lx : Lexer) : Except Str Lexer :=
  if lx.skips then
    Except.ok lx.update_pos
  else
    let current := lx.CurrentState
    match GetType current with
    | some current_type =>
      match lx.NextState with
      | some next =>
        if utils.AnyOfCommentPair (fun pair => decide (pair.1 = next)) then
          Except.ok lx
        else
          match GetType next with
          | some next_type =>
            if current_type = next_type ∨
                (utils.Includes kIdentifierBranches current_type = true ∧
                 utils.Includes kIdentifierBranches next_type = true) then
              Except.ok lx
            else Except.ok (lx.dispatch current current_type)
          | none => Except.ok (lx.dispatch current current_type)
      | none => Except.ok (lx.dispatch current current_type)
    | none =>
      if lx.NextState.isSome then Except.ok lx else Except.error current

/-- The increment `++current_position_` of the `for` loop. -/
def advance (lx : Lexer) : Lexer :=
  { lx with current_position_ := lx.current_position_ + 1 }

/-- The `for (; current_position_ < buffer_.length(); ++current_position_)` loop,
run for at most `fuel` iterations. -/
def loop : Nat → Lexer → Except Str Lexer
  | 0, lx => Except.ok lx
  | fuel + 1, lx =>
    if lx.current_position_ < lx.buffer_.length then
      match lx.body with
      | Except.ok lx1 => loop fuel lx1.advance
      | Except.error e => Except.error e
    else Except.ok lx

end Lexer

/-- The method `Lexer::Tokenise` on a freshly constructed lexer. Every iteration
advances `current_position_` by one, so `buffer.length` iterations exhaust the
loop (`Lexer.loop_exhausts`). -/
def Tokenise (buffer : Str) : Except Str (List Token) :=
  match Lexer.loop buffer.length (Lexer.new buffer) with
  | Except.ok lx => Except.ok lx.collected_
  | Except.error e => Except.error e

/-- The inclusive span of the token contains the offset `i`. -/
def Token.covers (t : Token) (i : Nat) : Prop :=
  t.position.1 ≤ i ∧ i ≤ t.position.2

instance (t : Token) (i : Nat) : Decidable (t.covers i) :=
  inferInstanceAs (Decidable (_ ∧ _))

/-- The scan of `buffer` skips the offset `i`: after `i` iterations of the loop
of `Tokenise` the scanner stands at `i` and takes the whitespace branch. -/
def skippedAt (buffer : Str) (i : Nat) : Bool :=
  match Lexer.loop i (Lexer.new buffer) with
  | Except.ok lx =>
    decide (lx.current_position_ = i) && decide (i < buffer.length) && lx.skips
  | Except.error _ => false

/-- The skipped characters of `buffer` at the offsets `a ≤ i < b`, in offset order. -/
def skippedChars (buffer : Str) (a b : Nat) : Str :=
  ((List.range' a (b - a)).filter (skippedAt buffer)).map (fun i => buffer.getD i default)

/-- The token values and the skipped characters from offset `pos` on, concatenated
in offset order: the skipped characters before a token, its value, and so on
after its end offset. -/
def reassemble (buffer : Str) : Nat → List Token → Str
  | pos, [] => skippedChars buffer pos buffer.length
  | pos, t :: ts =>
    skippedChars buffer pos t.position.1 ++ t.value ++ reassemble buffer (t.position.2 + 1) ts

/-- The tokens `ts` and the offsets satisfying `S` tile the buffer from `pos` on:
before each token only offsets in `S`, then the token with its span inside the
buffer and free of `S`, its value the slice of its span and its kind that of
its value. -/
def Seg (buffer : Str) (S : Nat → Prop) : Nat → List Token → Prop
  | pos, [] => ∀ i, pos ≤ i → i < buffer.length → S i
  | pos, t :: ts =>
    pos ≤ t.position.1 ∧ (∀ i, pos ≤ i → i < t.position.1 → S i) ∧
    (∀ i, t.position.1 ≤ i → i ≤ t.position.2 → ¬ S i) ∧
    t.position.1 ≤ t.position.2 ∧ t.position.2 < buffer.length ∧
    t.value = (buffer.drop t.position.1).take (t.position.2 - t.position.1 + 1) ∧
    GetType t.value = some t.type ∧ Seg buffer S (t.position.2 + 1) ts

/-- The scanner state between two iterations of the loop of `Tokenise`: the
token start is not after the cursor, a cursor at the end of the buffer has no
pending candidate, the state is the one the scan of its buffer reaches, and no
offset of the pending candidate was skipped. -/
structure Lexer.Inv (lx : Lexer) : Prop where
  le : lx.last_position_ ≤ lx.current_position_
  bound : lx.current_position_ ≤ lx.buffer_.length
  atEnd : lx.current_position_ = lx.buffer_.length → lx.last_position_ = lx.buffer_.length
  reached : Lexer.loop lx.current_position_ (Lexer.new lx.buffer_) = Except.ok lx
  pend : ∀ i, lx.last_position_ ≤ i → i < lx.current_position_ → skippedAt lx.buffer_ i = false

/-- The token `t` with both offsets of its span moved by `k`. -/
def Token.shift (k : Nat) (t : Token) : Token :=
  { t with position := (k + t.position.1, k + t.position.2) }

/-- The scanner state `lx` seen after a consumed prefix `p` of the buffer, with
the tokens `c` already collected: offsets move by the length of `p`. -/
def Lexer.embed (p : Str) (c : List Token) (lx : Lexer) : Lexer :=
  { buffer_ := p ++ lx.buffer_
    last_position_ := p.length + lx.last_position_
    current_position_ := p.length + lx.current_position_
    collected_ := c ++ lx.collected_.map (Token.shift p.length) }


namespace Lexer

theorem body_cases (lx : Lexer) :
    (lx.skips = true ∧ lx.body = Except.ok lx.update_pos) ∨
    (lx.skips = false ∧ lx.NextState.isSome = true ∧ lx.body = Except.ok lx) ∨
    (lx.skips = false ∧ ∃ ty, GetType lx.CurrentState = some ty ∧
      lx.body = Except.ok (lx.dispatch lx.CurrentState ty)) ∨
    (lx.skips = false ∧ GetType lx.CurrentState = none ∧ lx.NextState = none ∧
      lx.body = Except.error lx.CurrentState) := by
  unfold body
  by_cases hs : lx.skips = true
  · simp [hs]
  · simp only [hs, Bool.false_eq_true, ↓reduceIte]
    simp only [Bool.not_eq_true] at hs
    cases hc : GetType lx.CurrentState with
    | none =>
      cases hn : lx.NextState with
      | none => simp [hs]
      | some nx => simp [hs]
    | some ty =>
      cases hn : lx.NextState with
      | none => simp [hs]
      | some nx =>
        simp only [hs]
        split
        · simp
        · cases hg : GetType nx with
          | none => simp
          | some ty2 =>
            simp only
            split <;> simp

theorem nextState_isSome_iff (lx : Lexer) :
    lx.NextState.isSome = true ↔ lx.current_position_ + 1 < lx.buffer_.length := by
  unfold NextState Seek
  split <;> simp_all

theorem nextState_eq_none_iff (lx : Lexer) :
    lx.NextState = none ↔ lx.buffer_.length ≤ lx.current_position_ + 1 := by
  unfold NextState Seek
  split <;> simp_all

theorem currentState_eq (lx : Lexer) (h : lx.current_position_ < lx.buffer_.length) :
    lx.CurrentState =
      (lx.buffer_.drop lx.last_position_).take (lx.current_position_ - lx.last_position_ + 1) := by
  simp [CurrentState, Seek, h]

theorem skips_last (lx : Lexer) (h : lx.skips = true) :
    lx.last_position_ = lx.current_position_ := by
  simp [skips] at h
  exact h.2

theorem loop_done (fuel : Nat) (lx : Lexer) (h : ¬ lx.current_position_ < lx.buffer_.length) :
    loop fuel lx = Except.ok lx := by
  cases fuel with
  | zero => rfl
  | succ k => simp [loop, h]

theorem loop_add (a b : Nat) : ∀ lx : Lexer, loop (a + b) lx = (loop a lx).bind (loop b) := by
  induction a with
  | zero => intro lx; simp [loop, Except.bind]
  | succ a ih =>
    intro lx
    rw [Nat.add_right_comm]
    by_cases hc : lx.current_position_ < lx.buffer_.length
    · simp only [loop, hc, ↓reduceIte]
      cases hb : lx.body with
      | error e => simp [Except.bind]
      | ok lx1 => simpa using ih lx1.advance
    · rw [loop_done _ _ hc, loop_done _ _ hc]
      simp [Except.bind, loop_done _ _ hc]

theorem loop_one (lx : Lexer) :
    loop 1 lx =
      if lx.current_position_ < lx.buffer_.length then
        match lx.body with
        | Except.ok lx1 => Except.ok lx1.advance
        | Except.error e => Except.error e
      else Except.ok lx := by
  simp only [loop]

theorem loop_succ_right (k : Nat) (s lx : Lexer) (h : loop k s = Except.ok lx) :
    loop (k + 1) s = loop 1 lx := by
  rw [loop_add, h]; rfl

theorem inv_new (buffer : Str) : (Lexer.new buffer).Inv := by
  constructor <;> simp [Lexer.new, loop]

theorem reached_step (lx lx1 : Lexer) (hr : lx.Inv) (hb : lx.body = Except.ok lx1)
    (hc : lx.current_position_ < lx.buffer_.length)
    (hbuf : lx1.buffer_ = lx.buffer_) (hcur : lx1.current_position_ = lx.current_position_) :
    loop lx1.advance.current_position_ (Lexer.new lx1.advance.buffer_) = Except.ok lx1.advance := by
  have : lx1.advance.current_position_ = lx.current_position_ + 1 := by simp [advance, hcur]
  rw [this]
  have hb2 : lx1.advance.buffer_ = lx.buffer_ := by simp [advance, hbuf]
  rw [hb2, loop_succ_right _ _ _ hr.reached, loop_one, if_pos hc, hb]

theorem skippedAt_of_inv (lx : Lexer) (hr : lx.Inv)
    (hc : lx.current_position_ < lx.buffer_.length) :
    skippedAt lx.buffer_ lx.current_position_ = lx.skips := by
  unfold skippedAt
  rw [hr.reached]
  simp [hc]

/-- The states after a skipped whitespace character, after an extension of the
candidate and after a dispatch satisfy the invariant again. -/
theorem inv_skip (lx : Lexer) (hi : lx.Inv) (hc : lx.current_position_ < lx.buffer_.length)
    (hb : lx.body = Except.ok lx.update_pos) : lx.update_pos.advance.Inv := by
  refine ⟨?_, ?_, ?_, reached_step lx _ hi hb hc rfl rfl, ?_⟩ <;>
    simp [update_pos, advance] <;> omega

theorem inv_keep (lx : Lexer) (hi : lx.Inv) (hc : lx.current_position_ < lx.buffer_.length)
    (hs : lx.skips = false) (hn : lx.NextState.isSome = true) (hb : lx.body = Except.ok lx) :
    lx.advance.Inv := by
  rw [nextState_isSome_iff] at hn
  have hle := hi.le
  refine ⟨?_, ?_, ?_, reached_step lx _ hi hb hc rfl rfl, ?_⟩
  · simp [advance]; omega
  · simp [advance]; omega
  · simp [advance]; omega
  · intro i h1 h2
    simp only [advance] at h1 h2 ⊢
    rcases Nat.eq_or_lt_of_le (Nat.le_of_lt_succ h2) with rfl | hlt
    · rw [skippedAt_of_inv lx hi hc, hs]
    · exact hi.pend i h1 hlt

theorem inv_dispatch (lx : Lexer) (hi : lx.Inv) (hc : lx.current_position_ < lx.buffer_.length)
    (cur : Str) (ty : TokenType) (hb : lx.body = Except.ok (lx.dispatch cur ty)) :
    (lx.dispatch cur ty).advance.Inv := by
  refine ⟨?_, ?_, ?_, reached_step lx _ hi hb hc rfl rfl, ?_⟩ <;>
    simp [dispatch, update_pos, advance] <;> omega

theorem seg_extend (buffer : Str) (S : Nat → Prop) (pos : Nat) (ts : List Token)
    (hS : S pos) (h : Seg buffer S (pos + 1) ts) : Seg buffer S pos ts := by
  cases ts with
  | nil =>
    intro i hi hlt
    rcases Nat.eq_or_lt_of_le hi with rfl | hgt
    · exact hS
    · exact h i hgt hlt
  | cons t ts =>
    obtain ⟨h1, h2, h3⟩ := h
    refine ⟨by omega, ?_, h3⟩
    intro i hi hlt
    rcases Nat.eq_or_lt_of_le hi with rfl | hgt
    · exact hS
    · exact h2 i hgt hlt

theorem loop_seg (fuel : Nat) : ∀ lx lx2 : Lexer, lx.Inv →
    lx.buffer_.length ≤ lx.current_position_ + fuel → loop fuel lx = Except.ok lx2 →
    ∃ new, lx2.collected_ = lx.collected_ ++ new ∧
      Seg lx.buffer_ (fun i => skippedAt lx.buffer_ i = true) lx.last_position_ new ∧
      (lx.last_position_ < lx.current_position_ →
        ∃ t ts, new = t :: ts ∧ t.position.1 = lx.last_position_) := by
  have base : ∀ lx lx2 : Lexer, lx.Inv → lx.buffer_.length ≤ lx.current_position_ →
      Except.ok lx = (Except.ok lx2 : Except Str Lexer) →
      ∃ new, lx2.collected_ = lx.collected_ ++ new ∧
        Seg lx.buffer_ (fun i => skippedAt lx.buffer_ i = true) lx.last_position_ new ∧
        (lx.last_position_ < lx.current_position_ →
          ∃ t ts, new = t :: ts ∧ t.position.1 = lx.last_position_) := by
    intro lx lx2 hwf hlen h
    injection h with h
    subst h
    have hcn : lx.current_position_ = lx.buffer_.length := Nat.le_antisymm hwf.bound hlen
    have hln := hwf.atEnd hcn
    refine ⟨[], by simp, ?_, ?_⟩
    · intro i hi hlt; omega
    · intro h; omega
  induction fuel with
  | zero =>
    intro lx lx2 hwf hlen h
    exact base lx lx2 hwf (by simpa using hlen) h
  | succ fuel ih =>
    intro lx lx2 hwf hlen h
    by_cases hc : lx.current_position_ < lx.buffer_.length
    · simp only [loop, hc, ↓reduceIte] at h
      rcases body_cases lx with ⟨hs, hb⟩ | ⟨hs, hn, hb⟩ | ⟨hs, ty, hty, hb⟩ | ⟨hs, _, _, hb⟩
      · -- whitespace skipped
        have hlast := skips_last lx hs
        have hwf2 := inv_skip lx hwf hc hb
        rw [hb] at h
        obtain ⟨new, h1, h2, _⟩ := ih _ lx2 hwf2
          (by simp [update_pos, advance]; omega) h
        refine ⟨new, h1, ?_, ?_⟩
        · rw [hlast]
          refine seg_extend _ _ _ _ ?_ h2
          rw [skippedAt_of_inv lx hwf hc, hs]
        · intro h; omega
      · -- candidate extended
        have hwf2 := inv_keep lx hwf hc hs hn hb
        rw [hb] at h
        rw [nextState_isSome_iff] at hn
        obtain ⟨new, h1, h2, h3⟩ := ih _ lx2 hwf2 (by simp [advance]; omega) h
        refine ⟨new, h1, h2, ?_⟩
        intro _
        exact h3 (by simp [advance]; have := hwf.le; omega)
      · -- token dispatched
        have hwf2 := inv_dispatch lx hwf hc _ ty hb
        rw [hb] at h
        obtain ⟨new, h1, h2, _⟩ := ih _ lx2 hwf2
          (by simp [dispatch, update_pos, advance]; omega) h
        refine ⟨_ :: new, by simpa [dispatch, update_pos, advance] using h1, ?_, ?_⟩
        · have hle := hwf.le
          refine ⟨le_refl _, ?_, ?_, hle, hc, currentState_eq lx hc, hty, h2⟩
          · intro i h1 h2
            simp at h2
            omega
          · intro i h1 h2
            simp only at h1 h2
            rcases Nat.eq_or_lt_of_le h2 with rfl | hlt
            · show ¬ (skippedAt lx.buffer_ _ = true)
              rw [skippedAt_of_inv lx hwf hc, hs]; simp
            · show ¬ (skippedAt lx.buffer_ _ = true)
              rw [hwf.pend i h1 hlt]; simp
        · intro _
          exact ⟨_, _, rfl, rfl⟩
      · rw [hb] at h
        cases h
    · rw [loop_done _ _ hc] at h
      exact base lx lx2 hwf (by omega) h

end Lexer

theorem tokenise_ok_iff (buffer : Str) (toks : List Token) :
    Tokenise buffer = Except.ok toks ↔
      ∃ lx, Lexer.loop buffer.length (Lexer.new buffer) = Except.ok lx ∧ lx.collected_ = toks := by
  unfold Tokenise
  cases Lexer.loop buffer.length (Lexer.new buffer) <;> simp

/-- The tokens of a successful scan and the skipped offsets tile the buffer. -/
theorem tokenise_seg (buffer : Str) (toks : List Token) (h : Tokenise buffer = Except.ok toks) :
    Seg buffer (fun i => skippedAt buffer i = true) 0 toks := by
  obtain ⟨lx, hl, rfl⟩ := (tokenise_ok_iff buffer toks).1 h
  obtain ⟨new, h1, h2, _⟩ := Lexer.loop_seg buffer.length (Lexer.new buffer) lx
    (Lexer.inv_new buffer) (by simp [Lexer.new]) hl
  simp only [Lexer.new, List.nil_append] at h1 h2
  rw [h1]
  exact h2


theorem seg_mem (buffer : Str) (S : Nat → Prop) : ∀ (ts : List Token) (pos : Nat),
    Seg buffer S pos ts → ∀ t ∈ ts, pos ≤ t.position.1 ∧ t.position.1 ≤ t.position.2 ∧
      t.position.2 < buffer.length ∧
      t.value = (buffer.drop t.position.1).take (t.position.2 - t.position.1 + 1) ∧
      GetType t.value = some t.type := by
  intro ts
  induction ts with
  | nil => intro pos _ t ht; cases ht
  | cons a ts ih =>
    intro pos h t ht
    obtain ⟨h1, _, _, h3, h4, h5, h6, h7⟩ := h
    rcases List.mem_cons.1 ht with rfl | hm
    · exact ⟨h1, h3, h4, h5, h6⟩
    · obtain ⟨g1, g2⟩ := ih _ h7 t hm
      exact ⟨by omega, g2⟩

theorem seg_chain (buffer : Str) (S : Nat → Prop) : ∀ (ts : List Token) (pos : Nat),
    Seg buffer S pos ts → List.Chain' (fun a b : Token => a.position.2 < b.position.1) ts := by
  intro ts
  induction ts with
  | nil => intro _ _; exact List.chain'_nil
  | cons a ts ih =>
    intro pos h
    obtain ⟨_, _, _, _, _, _, _, h7⟩ := h
    rw [List.chain'_cons']
    refine ⟨?_, ih _ h7⟩
    intro b hb
    cases ts with
    | nil => simp at hb
    | cons c ts =>
      simp only [List.head?_cons, Option.mem_def, Option.some.injEq] at hb
      subst hb
      have := h7.1
      omega

theorem seg_cover (buffer : Str) (S : Nat → Prop) : ∀ (ts : List Token) (pos : Nat),
    Seg buffer S pos ts → ∀ i, pos ≤ i → i < buffer.length →
      ((∃! t, t ∈ ts ∧ t.covers i) ∧ ¬ S i) ∨ (S i ∧ ∀ t ∈ ts, ¬ t.covers i) := by
  intro ts
  induction ts with
  | nil =>
    intro pos h i hi hlt
    exact Or.inr ⟨h i hi hlt, by simp⟩
  | cons a ts ih =>
    intro pos h i hi hlt
    have hall := seg_mem buffer S _ _ h.2.2.2.2.2.2.2
    obtain ⟨h1, h2, h2n, h3, h4, _, _, h7⟩ := h
    by_cases hlo : i < a.position.1
    · right
      refine ⟨h2 i hi hlo, ?_⟩
      intro t ht hcov
      rcases List.mem_cons.1 ht with rfl | hm
      · exact absurd hcov.1 (by omega)
      · have := (hall t hm).1
        exact absurd hcov.1 (by omega)
    · by_cases hhi : i ≤ a.position.2
      · left
        refine ⟨⟨a, ⟨List.mem_cons_self _ _, by constructor <;> omega⟩, ?_⟩, h2n i (by omega) hhi⟩
        rintro t ⟨ht, hcov⟩
        rcases List.mem_cons.1 ht with rfl | hm
        · rfl
        · have := (hall t hm).1
          exact absurd hcov.1 (by omega)
      · have hna : ¬ a.covers i := fun hcov => hhi hcov.2
        rcases ih _ h7 i (by omega) hlt with ⟨⟨t, ⟨ht, hcov⟩, huniq⟩, hS⟩ | ⟨hS, hno⟩
        · left
          refine ⟨⟨t, ⟨List.mem_cons_of_mem _ ht, hcov⟩, ?_⟩, hS⟩
          rintro u ⟨hu, hucov⟩
          rcases List.mem_cons.1 hu with rfl | hm
          · exact absurd hucov hna
          · exact huniq u ⟨hm, hucov⟩
        · right
          refine ⟨hS, ?_⟩
          intro t ht
          rcases List.mem_cons.1 ht with rfl | hm
          · exact hna
          · exact hno t hm

theorem map_getD_range' (buffer : Str) (d : Char) : ∀ (k a : Nat), a + k ≤ buffer.length →
    (List.range' a k).map (fun i => buffer.getD i d) = (buffer.drop a).take k := by
  intro k
  induction k with
  | zero => intro a _; simp
  | succ k ih =>
    intro a h
    have ha : a < buffer.length := by omega
    rw [List.range'_succ, List.map_cons, ih (a + 1) (by omega), List.drop_eq_getElem_cons ha,
      List.take_succ_cons]
    simp [List.getElem?_eq_getElem ha]

theorem skippedChars_all (buffer : Str) (a b : Nat) (hb : b ≤ buffer.length)
    (h : ∀ i, a ≤ i → i < b → skippedAt buffer i = true) :
    skippedChars buffer a b = (buffer.drop a).take (b - a) := by
  unfold skippedChars
  by_cases hab : a ≤ b
  · rw [List.filter_eq_self.2, map_getD_range' buffer default (b - a) a (by omega)]
    intro i hi
    rw [List.mem_range'_1] at hi
    exact h i hi.1 (by omega)
  · have e : b - a = 0 := by omega
    simp [e]

theorem take_sub_append_drop (buffer : Str) (a b : Nat) (h : a ≤ b) :
    (buffer.drop a).take (b - a) ++ buffer.drop b = buffer.drop a := by
  have := List.take_append_drop (b - a) (buffer.drop a)
  rw [List.drop_drop] at this
  have e : a + (b - a) = b := by omega
  rw [e] at this
  exact this

theorem seg_reassemble (buffer : Str) : ∀ (ts : List Token) (pos : Nat),
    pos ≤ buffer.length → Seg buffer (fun i => skippedAt buffer i = true) pos ts →
    reassemble buffer pos ts = buffer.drop pos := by
  intro ts
  induction ts with
  | nil =>
    intro pos hpos h
    simp only [reassemble]
    rw [skippedChars_all buffer pos buffer.length (le_refl _) (fun i h1 h2 => h i h1 h2)]
    exact List.take_of_length_le (by simp)
  | cons a ts ih =>
    intro pos hpos h
    obtain ⟨h1, h2, _, h3, h4, h5, _, h7⟩ := h
    simp only [reassemble]
    rw [skippedChars_all buffer pos a.position.1 (by omega) h2, ih _ (by omega) h7, h5,
      List.append_assoc]
    have e : a.position.2 - a.position.1 + 1 = (a.position.2 + 1) - a.position.1 := by omega
    rw [e, take_sub_append_drop buffer a.position.1 (a.position.2 + 1) (by omega),
      take_sub_append_drop buffer pos a.position.1 h1]

theorem Lexer.loop_buffer (fuel : Nat) : ∀ lx lx2 : Lexer,
    Lexer.loop fuel lx = Except.ok lx2 → lx2.buffer_ = lx.buffer_ := by
  induction fuel with
  | zero => intro lx lx2 h; simp only [Lexer.loop] at h; cases h; rfl
  | succ fuel ih =>
    intro lx lx2 h
    by_cases hc : lx.current_position_ < lx.buffer_.length
    · simp only [Lexer.loop, hc, ↓reduceIte] at h
      rcases Lexer.body_cases lx with ⟨_, hb⟩ | ⟨_, _, hb⟩ | ⟨_, ty, _, hb⟩ | ⟨_, _, _, hb⟩ <;>
        rw [hb] at h
      · exact ih lx.update_pos.advance _ h
      · exact ih lx.advance _ h
      · exact ih (lx.dispatch lx.CurrentState ty).advance _ h
      · cases h
    · rw [Lexer.loop_done _ _ hc] at h
      cases h; rfl

theorem skippedAt_space (buffer : Str) (i : Nat) (h : skippedAt buffer i = true) :
    i < buffer.length ∧ isspace (buffer.getD i default) = true ∧ buffer.getD i default ≠ '\n' := by
  unfold skippedAt at h
  split at h
  · rename_i lx hl
    simp only [Bool.and_eq_true, decide_eq_true_eq] at h
    obtain ⟨⟨hcur, hlt⟩, hs⟩ := h
    have hb : lx.buffer_ = buffer := Lexer.loop_buffer _ _ _ hl
    simp only [Lexer.skips, hcur, hb, Bool.and_eq_true, decide_eq_true_eq] at hs
    exact ⟨hlt, hs.1.2, hs.1.1⟩
  · cases h


/-- Before the last character of the buffer the scan cannot fail: after `fuel`
iterations ending before the end it stands at the next offset. -/
theorem Lexer.loop_before_end (fuel : Nat) : ∀ lx : Lexer, lx.Inv →
    lx.current_position_ + fuel < lx.buffer_.length →
    ∃ lx2, Lexer.loop fuel lx = Except.ok lx2 ∧ lx2.Inv ∧
      lx2.current_position_ = lx.current_position_ + fuel ∧ lx2.buffer_ = lx.buffer_ := by
  induction fuel with
  | zero => intro lx hi _; exact ⟨lx, rfl, hi, rfl, rfl⟩
  | succ fuel ih =>
    intro lx hi hlt
    have hc : lx.current_position_ < lx.buffer_.length := by omega
    simp only [Lexer.loop, hc, ↓reduceIte]
    rcases Lexer.body_cases lx with ⟨_, hb⟩ | ⟨hs, hn, hb⟩ | ⟨_, ty, _, hb⟩ | ⟨_, _, hn, _⟩
    · obtain ⟨lx2, h1, h2, h3, h4⟩ := ih _ (Lexer.inv_skip lx hi hc hb)
        (by simp [Lexer.update_pos, Lexer.advance]; omega)
      rw [hb]
      exact ⟨lx2, h1, h2, by simp [h3, Lexer.update_pos, Lexer.advance]; omega, h4⟩
    · obtain ⟨lx2, h1, h2, h3, h4⟩ := ih _ (Lexer.inv_keep lx hi hc hs hn hb)
        (by simp [Lexer.advance]; omega)
      rw [hb]
      exact ⟨lx2, h1, h2, by simp [h3, Lexer.advance]; omega, h4⟩
    · obtain ⟨lx2, h1, h2, h3, h4⟩ := ih _ (Lexer.inv_dispatch lx hi hc _ ty hb)
        (by simp [Lexer.dispatch, Lexer.update_pos, Lexer.advance]; omega)
      rw [hb]
      exact ⟨lx2, h1, h2, by simp [h3, Lexer.dispatch, Lexer.update_pos, Lexer.advance]; omega, h4⟩
    · rw [Lexer.nextState_eq_none_iff] at hn
      omega

/-- The fuel of `Tokenise` is enough: when the loop returns after
`buffer_.length - current_position_` iterations its condition is false. -/
theorem Lexer.loop_exhausts (fuel : Nat) : ∀ lx lx2 : Lexer,
    lx.buffer_.length ≤ lx.current_position_ + fuel → Lexer.loop fuel lx = Except.ok lx2 →
    ¬ lx2.current_position_ < lx2.buffer_.length := by
  induction fuel with
  | zero =>
    intro lx lx2 hlen h
    simp only [Lexer.loop] at h
    cases h
    omega
  | succ fuel ih =>
    intro lx lx2 hlen h
    by_cases hc : lx.current_position_ < lx.buffer_.length
    · simp only [Lexer.loop, hc, ↓reduceIte] at h
      rcases Lexer.body_cases lx with ⟨_, hb⟩ | ⟨_, _, hb⟩ | ⟨_, ty, _, hb⟩ | ⟨_, _, _, hb⟩ <;>
        rw [hb] at h
      · exact ih lx.update_pos.advance _ (by simp [Lexer.update_pos, Lexer.advance]; omega) h
      · exact ih lx.advance _ (by simp [Lexer.advance]; omega) h
      · exact ih (lx.dispatch lx.CurrentState ty).advance _
          (by simp [Lexer.dispatch, Lexer.update_pos, Lexer.advance]; omega) h
      · cases h
    · rw [Lexer.loop_done _ _ hc] at h
      cases h
      exact hc

/-- The scan splits into the iterations before the last character and the last one. -/
theorem tokenise_last (buffer : Str) (hne : buffer ≠ []) :
    ∃ lx, Lexer.loop (buffer.length - 1) (Lexer.new buffer) = Except.ok lx ∧ lx.Inv ∧
      lx.current_position_ = buffer.length - 1 ∧ lx.buffer_ = buffer ∧
      Tokenise buffer =
        match lx.body with
        | Except.ok lx1 => Except.ok lx1.collected_
        | Except.error e => Except.error e := by
  have hpos : 0 < buffer.length := List.length_pos.2 hne
  obtain ⟨lx, h1, h2, h3, h4⟩ := Lexer.loop_before_end (buffer.length - 1) (Lexer.new buffer)
    (Lexer.inv_new buffer) (by simp [Lexer.new]; omega)
  simp only [Lexer.new, Nat.zero_add] at h3 h4
  refine ⟨lx, h1, h2, h3, h4, ?_⟩
  unfold Tokenise
  have e : buffer.length = (buffer.length - 1) + 1 := by omega
  have hc : lx.current_position_ < lx.buffer_.length := by rw [h3, h4]; omega
  conv_lhs => rw [e, Lexer.loop_succ_right _ _ _ h1, Lexer.loop_one, if_pos hc]
  cases lx.body <;> rfl


theorem endsWithChar_iff (e : Str) (c : Char) :
    utils.EndsWithChar e c = true ↔ e.getLast? = some c := by
  unfold utils.EndsWithChar
  rcases List.eq_nil_or_concat e with rfl | ⟨l, x, rfl⟩
  · simp
  · simp

theorem startsWithChar_iff (e : Str) (c : Char) :
    utils.StartsWithChar e c = true ↔ e.head? = some c := by
  unfold utils.StartsWithChar
  cases e <;> simp

/-- The escape test of `has_literal_bound` never rejects: a candidate ending
with the bound does not end with the character `'\\' + delim`. -/
theorem has_literal_bound_iff (e : Str) (delim : Char)
    (hd : delim ≠ intToChar (kBackslash.toNat + delim.toNat)) :
    has_literal_bound e delim = true ↔
      1 < e.length ∧ e.head? = some delim ∧ e.getLast? = some delim := by
  unfold has_literal_bound
  simp only [Bool.and_eq_true, decide_eq_true_eq, startsWithChar_iff, endsWithChar_iff,
    Bool.not_eq_true', gt_iff_lt]
  constructor
  · rintro ⟨⟨⟨h1, h2⟩, h3⟩, _⟩
    exact ⟨h1, h2, h3⟩
  · rintro ⟨h1, h2, h3⟩
    refine ⟨⟨⟨h1, h2⟩, h3⟩, ?_⟩
    cases hb : utils.EndsWithChar e (intToChar (kBackslash.toNat + delim.toNat))
    · rfl
    · rw [endsWithChar_iff, h3] at hb
      exact absurd (Option.some.inj hb) hd

theorem getType_of_isLiteral (e : Str) (h : isLiteral e = true) :
    GetType e = some TokenType.kLiteral := by
  simp [GetType, h]

theorem isLiteral_head (c : Char) (t : Str) (h : isLiteral (c :: t) = true) :
    c = kStringBound ∨ c = kRuneBound ∨ c = 't' ∨ c = 'f' ∨ c = '_' ∨ isdigit c = true ∨
      c = '.' ∨ c = 'E' ∨ c = '+' := by
  simp only [isLiteral, has_literal_bound, has_special_number_bound, utils.StartsWithChar,
    utils.IsIn, utils.EveryCharIsUnderscoreOr, utils.StartsWith, kBoolValues,
    Bool.or_eq_true, Bool.and_eq_true, decide_eq_true_eq, List.all_cons, List.any_cons,
    List.any_nil, Bool.or_false, List.take_succ_cons, List.take_zero, List.cons.injEq,
    and_true, List.length_cons, List.length_nil] at h
  have h0 : c = '0' → isdigit c = true := by rintro rfl; decide
  tauto

theorem getType_comment_line (t : Str) :
    GetType ('/' :: '/' :: t) =
      if t.getLast? = some '\n' then some TokenType.kComment else none := by
  have hlit : isLiteral ('/' :: '/' :: t) = false := by
    cases hl : isLiteral ('/' :: '/' :: t)
    · rfl
    · have := isLiteral_head _ _ hl
      revert this
      decide
  have hal : isalnum '/' = false := by decide
  simp only [GetType, hlit, Bool.false_eq_true, ↓reduceIte]
  rcases List.eq_nil_or_concat t with rfl | ⟨l, x, rfl⟩
  · simp [utils.Includes, kKeywords, kOperators, kBreakers, utils.EveryCharIsUnderscoreOr,
      utils.AnyOfCommentPair, kCommentPairs, utils.StartsWith, utils.EndsWith, hal]
  · simp [utils.Includes, kKeywords, kOperators, kBreakers, utils.EveryCharIsUnderscoreOr,
      utils.AnyOfCommentPair, kCommentPairs, utils.StartsWith, utils.EndsWith, hal]


namespace Lexer

theorem body_of_none_next (lx : Lexer) (ty : TokenType) (hs : lx.skips = false)
    (hc : GetType lx.CurrentState = some ty) (hn : lx.NextState = none) :
    lx.body = Except.ok (lx.dispatch lx.CurrentState ty) := by
  simp [body, hs, hc, hn]

theorem body_of_untyped_next (lx : Lexer) (ty : TokenType) (nx : Str) (hs : lx.skips = false)
    (hc : GetType lx.CurrentState = some ty) (hn : lx.NextState = some nx)
    (ho : utils.AnyOfCommentPair (fun pair => decide (pair.1 = nx)) = false)
    (hx : GetType nx = none) :
    lx.body = Except.ok (lx.dispatch lx.CurrentState ty) := by
  simp [body, hs, hc, hn, ho, hx]

theorem body_of_opener (lx : Lexer) (ty : TokenType) (nx : Str) (hs : lx.skips = false)
    (hc : GetType lx.CurrentState = some ty) (hn : lx.NextState = some nx)
    (ho : utils.AnyOfCommentPair (fun pair => decide (pair.1 = nx)) = true) :
    lx.body = Except.ok lx := by
  simp [body, hs, hc, hn, ho]

theorem body_of_compatible (lx : Lexer) (a b : TokenType) (nx : Str) (hs : lx.skips = false)
    (hc : GetType lx.CurrentState = some a) (hn : lx.NextState = some nx)
    (hx : GetType nx = some b)
    (hab : a = b ∨ (utils.Includes kIdentifierBranches a = true ∧
      utils.Includes kIdentifierBranches b = true)) :
    lx.body = Except.ok lx := by
  simp only [body, hs, hc, hn, hx, Bool.false_eq_true, ↓reduceIte]
  rw [if_pos hab]
  split <;> rfl

theorem body_of_untyped (lx : Lexer) (hs : lx.skips = false)
    (hc : GetType lx.CurrentState = none) (hn : lx.NextState.isSome = true) :
    lx.body = Except.ok lx := by
  simp [body, hs, hc, hn]

theorem nextState_eq (lx : Lexer) (h : lx.current_position_ + 1 < lx.buffer_.length) :
    lx.NextState = some ((lx.buffer_.drop lx.last_position_).take
      (lx.current_position_ + 1 - lx.last_position_ + 1)) := by
  simp [NextState, Seek, h]

end Lexer

/-- A whitespace character other than the newline has no kind. -/
theorem getType_space (c : Char) (h1 : isspace c = true) (h2 : c ≠ '\n') :
    GetType [c] = none := by
  have hc : c = Char.ofNat c.toNat := (Char.ofNat_toNat c).symm
  simp only [isspace, Bool.or_eq_true, Bool.and_eq_true, decide_eq_true_eq] at h1
  have h10 : c.toNat ≠ 10 := by
    intro h
    rw [h] at hc
    exact h2 hc
  have hcases : c.toNat = 32 ∨ c.toNat = 9 ∨ c.toNat = 11 ∨ c.toNat = 12 ∨ c.toNat = 13 := by
    omega
  rcases hcases with h | h | h | h | h <;> rw [h] at hc <;> subst hc <;> decide

/-- A scanner standing on a character that alone has a kind does not skip it. -/
theorem skips_false_of_kind (buffer : Str) (k : Nat) (coll : List Token) (hk : k < buffer.length)
    (h : k = 0 → ∃ ty, GetType (buffer.take 1) = some ty) :
    (Lexer.mk buffer 0 k coll).skips = false := by
  cases hs : (Lexer.mk buffer 0 k coll).skips
  · rfl
  · exfalso
    simp only [Lexer.skips, Bool.and_eq_true, decide_eq_true_eq] at hs
    obtain ⟨⟨hnl, hsp⟩, h0⟩ := hs
    subst h0
    obtain ⟨ty, hty⟩ := h rfl
    cases buffer with
    | nil => simp at hk
    | cons c t =>
      simp only [List.take_succ_cons, List.take_zero] at hty
      simp only [List.getD_cons_zero] at hnl hsp
      rw [getType_space c hsp hnl] at hty
      cases hty

/-- A buffer whose non-empty prefixes all have a kind, each compatible with the
kind of the prefix one character longer, is scanned without a dispatch up to
its last character. -/
theorem loop_growing (buffer : Str)
    (h : ∀ k, 0 < k → k < buffer.length → ∃ a b, GetType (buffer.take k) = some a ∧
      GetType (buffer.take (k + 1)) = some b ∧
      (a = b ∨ (utils.Includes kIdentifierBranches a = true ∧
        utils.Includes kIdentifierBranches b = true)))
    (h1 : ∃ ty, GetType (buffer.take 1) = some ty) :
    ∀ k, k < buffer.length → Lexer.loop k (Lexer.new buffer) = Except.ok (Lexer.mk buffer 0 k []) := by
  intro k
  induction k with
  | zero => intro _; rfl
  | succ k ih =>
    intro hk
    rw [Lexer.loop_succ_right _ _ _ (ih (by omega)), Lexer.loop_one]
    have hc : k < buffer.length := by omega
    simp only [hc, ↓reduceIte]
    obtain ⟨a, b, ha, hb, hab⟩ := h (k + 1) (by omega) hk
    have hbody : (Lexer.mk buffer 0 k []).body = Except.ok (Lexer.mk buffer 0 k []) := by
      apply Lexer.body_of_compatible _ a b (buffer.take (k + 2))
        (skips_false_of_kind buffer k [] hc (fun _ => h1))
      · rw [Lexer.currentState_eq _ hc]; simpa using ha
      · rw [Lexer.nextState_eq _ hk]; simp
      · exact hb
      · exact hab
    rw [hbody]
    rfl

/-- Such a buffer is dispatched as one token spanning it. -/
theorem tokenise_single (buffer : Str) (hne : buffer ≠ [])
    (h : ∀ k, 0 < k → k < buffer.length → ∃ a b, GetType (buffer.take k) = some a ∧
      GetType (buffer.take (k + 1)) = some b ∧
      (a = b ∨ (utils.Includes kIdentifierBranches a = true ∧
        utils.Includes kIdentifierBranches b = true)))
    (h1 : ∃ ty, GetType (buffer.take 1) = some ty)
    (ty : TokenType) (hty : GetType buffer = some ty) :
    Tokenise buffer = Except.ok [⟨buffer, ty, (0, buffer.length - 1)⟩] := by
  have hpos : 0 < buffer.length := List.length_pos.2 hne
  obtain ⟨lx, hl, _, _, _, ht⟩ := tokenise_last buffer hne
  rw [loop_growing buffer h h1 (buffer.length - 1) (by omega)] at hl
  cases hl
  rw [ht]
  have hc : buffer.length - 1 < buffer.length := by omega
  have hcur : (Lexer.mk buffer 0 (buffer.length - 1) []).CurrentState = buffer := by
    rw [Lexer.currentState_eq _ hc]
    simp only [List.drop_zero, Nat.sub_zero]
    apply List.take_of_length_le
    omega
  rw [Lexer.body_of_none_next _ ty (skips_false_of_kind buffer _ [] hc (fun _ => h1))
    (by rw [hcur]; exact hty)
    (by rw [Lexer.nextState_eq_none_iff]; simp only; omega)]
  simp [Lexer.dispatch, Lexer.update_pos, hcur]


namespace Lexer

theorem embed_skips (p : Str) (c : List Token) (lx : Lexer) :
    (lx.embed p c).skips = lx.skips := by
  simp [skips, embed, List.getD_eq_getElem?_getD, List.getElem?_append_right]

theorem embed_seek (p : Str) (c : List Token) (lx : Lexer) (k : Nat) :
    (lx.embed p c).Seek (p.length + k) = lx.Seek k := by
  have e : p.length + k - (p.length + lx.last_position_) = k - lx.last_position_ := by omega
  simp [Seek, embed, e, List.drop_append]

theorem embed_currentState (p : Str) (c : List Token) (lx : Lexer) :
    (lx.embed p c).CurrentState = lx.CurrentState := by
  unfold CurrentState
  rw [show (lx.embed p c).current_position_ = p.length + lx.current_position_ from rfl,
    embed_seek]

theorem embed_nextState (p : Str) (c : List Token) (lx : Lexer) :
    (lx.embed p c).NextState = lx.NextState := by
  unfold NextState
  rw [show (lx.embed p c).current_position_ + 1 = p.length + (lx.current_position_ + 1) from
    by simp [embed, Nat.add_assoc], embed_seek]

theorem embed_update_pos (p : Str) (c : List Token) (lx : Lexer) :
    (lx.embed p c).update_pos = lx.update_pos.embed p c := by
  simp [update_pos, embed, Nat.add_assoc]

theorem embed_advance (p : Str) (c : List Token) (lx : Lexer) :
    (lx.embed p c).advance = lx.advance.embed p c := by
  simp [advance, embed, Nat.add_assoc]

theorem embed_dispatch (p : Str) (c : List Token) (lx : Lexer) (cur : Str) (ty : TokenType) :
    (lx.embed p c).dispatch cur ty = (lx.dispatch cur ty).embed p c := by
  simp [dispatch, update_pos, embed, Nat.add_assoc, Token.shift]

/-- The loop body commutes with the embedding after a consumed prefix. -/
theorem embed_body (p : Str) (c : List Token) (lx : Lexer) :
    (lx.embed p c).body = (lx.body).map (Lexer.embed p c) := by
  unfold body
  rw [embed_skips, embed_currentState, embed_nextState]
  by_cases hs : lx.skips = true
  · simp [hs, embed_update_pos, Except.map]
  · simp only [hs, Bool.false_eq_true, ↓reduceIte]
    cases hc : GetType lx.CurrentState with
    | none =>
      cases hn : lx.NextState <;> simp [Except.map]
    | some ty =>
      cases hn : lx.NextState with
      | none => simp [Except.map, embed_dispatch]
      | some nx =>
        simp only
        split
        · simp [Except.map]
        · cases hg : GetType nx with
          | none => simp [Except.map, embed_dispatch]
          | some ty2 =>
            simp only
            split <;> simp [Except.map, embed_dispatch]

/-- The loop after a consumed prefix is the loop on the remainder, embedded. -/
theorem embed_loop (p : Str) (c : List Token) (fuel : Nat) : ∀ lx : Lexer,
    loop fuel (lx.embed p c) = (loop fuel lx).map (Lexer.embed p c) := by
  induction fuel with
  | zero => intro lx; rfl
  | succ fuel ih =>
    intro lx
    by_cases hc : lx.current_position_ < lx.buffer_.length
    · have hc2 : (lx.embed p c).current_position_ < (lx.embed p c).buffer_.length := by
        simp [embed]; omega
      simp only [loop, hc, hc2, ↓reduceIte]
      rw [embed_body]
      cases hb : lx.body with
      | error e => rfl
      | ok lx1 =>
        simp only [Except.map]
        rw [embed_advance, ih]
        rfl
    · have hc2 : ¬ (lx.embed p c).current_position_ < (lx.embed p c).buffer_.length := by
        simp [embed]; omega
      rw [loop_done _ _ hc, loop_done _ _ hc2]
      rfl

theorem skips_false_of_ne (lx : Lexer) (h : lx.last_position_ ≠ lx.current_position_) :
    lx.skips = false := by
  simp [skips, h]

end Lexer


theorem getLast?_ne_of_not_mem (l : Str) (c : Char) (h : c ∉ l) : l.getLast? ≠ some c := by
  intro hl
  exact h (List.mem_of_getLast?_eq_some hl)

/-- Inside a line comment whose body `s` holds no newline the scan dispatches
nothing: the candidate grows from offset 0 while the cursor is in `//` or `s`. -/
theorem loop_comment_body (s rest : Str) (hs : '\n' ∉ s) :
    ∀ k, k ≤ s.length + 2 → k < ('/' :: '/' :: (s ++ rest)).length →
      Lexer.loop k (Lexer.new ('/' :: '/' :: (s ++ rest))) =
        Except.ok (Lexer.mk ('/' :: '/' :: (s ++ rest)) 0 k []) := by
  intro k
  induction k with
  | zero => intro _ _; rfl
  | succ k ih =>
    intro hk hlt
    rw [Lexer.loop_succ_right _ _ _ (ih (by omega) (by omega)), Lexer.loop_one]
    have hc : k < ('/' :: '/' :: (s ++ rest)).length := by omega
    simp only [hc, ↓reduceIte]
    have hbody : (Lexer.mk ('/' :: '/' :: (s ++ rest)) 0 k []).body =
        Except.ok (Lexer.mk ('/' :: '/' :: (s ++ rest)) 0 k []) := by
      cases k with
      | zero =>
        apply Lexer.body_of_opener _ TokenType.kOperator ['/', '/']
        · simp [Lexer.skips]; decide
        · rw [Lexer.currentState_eq _ hc]
          simp only [List.drop_zero, Nat.sub_zero, List.take_succ_cons, List.take_zero]
          decide
        · rw [Lexer.nextState_eq _ hlt]; simp
        · decide
      | succ j =>
        apply Lexer.body_of_untyped
        · exact Lexer.skips_false_of_ne _ (by simp)
        · rw [Lexer.currentState_eq _ hc]
          simp only [List.drop_zero, Nat.sub_zero, List.take_succ_cons]
          rw [List.take_append_of_le_length (by omega), getType_comment_line,
            if_neg (getLast?_ne_of_not_mem _ _ (fun hm => hs (List.mem_of_mem_take hm)))]
        · rw [Lexer.nextState_isSome_iff]; exact hlt
    rw [hbody]
    rfl


/-- At the newline that closes a line comment the whole comment is dispatched,
when the next character is not another newline. -/
theorem loop_comment_dispatch (s r : Str) (hs : '\n' ∉ s) (hr : r.head? ≠ some '\n') :
    Lexer.loop (s.length + 3) (Lexer.new ('/' :: '/' :: (s ++ '\n' :: r))) =
      Except.ok ((Lexer.new r).embed ('/' :: '/' :: (s ++ ['\n']))
        [⟨'/' :: '/' :: (s ++ ['\n']), TokenType.kComment, (0, s.length + 2)⟩]) := by
  have hlen : ('/' :: '/' :: (s ++ '\n' :: r)).length = s.length + 3 + r.length := by
    simp; omega
  rw [Lexer.loop_succ_right _ _ _
    (loop_comment_body s ('\n' :: r) hs (s.length + 2) (le_refl _) (by rw [hlen]; omega)),
    Lexer.loop_one]
  have hc : s.length + 2 < ('/' :: '/' :: (s ++ '\n' :: r)).length := by rw [hlen]; omega
  simp only [hc, ↓reduceIte]
  have hskip : (Lexer.mk ('/' :: '/' :: (s ++ '\n' :: r)) 0 (s.length + 2) []).skips = false :=
    Lexer.skips_false_of_ne _ (by simp)
  have hcur : (Lexer.mk ('/' :: '/' :: (s ++ '\n' :: r)) 0 (s.length + 2) []).CurrentState =
      '/' :: '/' :: (s ++ ['\n']) := by
    rw [Lexer.currentState_eq _ hc]
    simp only [List.drop_zero, Nat.sub_zero, List.take_succ_cons]
    rw [List.take_append]
    simp
  have hty : GetType ('/' :: '/' :: (s ++ ['\n'])) = some TokenType.kComment := by
    rw [getType_comment_line]; simp
  have hbody : (Lexer.mk ('/' :: '/' :: (s ++ '\n' :: r)) 0 (s.length + 2) []).body =
      Except.ok ((Lexer.mk ('/' :: '/' :: (s ++ '\n' :: r)) 0 (s.length + 2) []).dispatch
        ('/' :: '/' :: (s ++ ['\n'])) TokenType.kComment) := by
    cases r with
    | nil =>
      have := Lexer.body_of_none_next _ TokenType.kComment hskip (by rw [hcur]; exact hty)
        (by rw [Lexer.nextState_eq_none_iff]; simp)
      rw [hcur] at this
      exact this
    | cons c r2 =>
      have hcn : c ≠ '\n' := by
        intro h; apply hr; simp [h]
      have hnext : (Lexer.mk ('/' :: '/' :: (s ++ '\n' :: c :: r2)) 0 (s.length + 2) []).NextState =
          some ('/' :: '/' :: (s ++ ['\n', c])) := by
        rw [Lexer.nextState_eq _ (by simp; omega)]
        simp only [List.drop_zero, Nat.sub_zero, List.take_succ_cons]
        rw [List.take_append]
        simp
      have := Lexer.body_of_untyped_next _ TokenType.kComment _ hskip
        (by rw [hcur]; exact hty) hnext
        (by simp [utils.AnyOfCommentPair, kCommentPairs])
        (by
          rw [getType_comment_line, if_neg]
          simp [List.getLast?_append, hcn])
      rw [hcur] at this
      exact this
  rw [hbody]
  simp [Lexer.dispatch, Lexer.update_pos, Lexer.advance, Lexer.embed, Lexer.new]

/-- After a line comment the scan continues as the scan of the remainder. -/
theorem tokenise_after_comment (s r : Str) (hs : '\n' ∉ s) (hr : r.head? ≠ some '\n') :
    Tokenise ('/' :: '/' :: (s ++ '\n' :: r)) =
      (Tokenise r).map (fun rest =>
        ⟨'/' :: '/' :: (s ++ ['\n']), TokenType.kComment, (0, s.length + 2)⟩ ::
          rest.map (Token.shift (s.length + 3))) := by
  have hlen : ('/' :: '/' :: (s ++ '\n' :: r)).length = s.length + 3 + r.length := by
    simp; omega
  unfold Tokenise
  rw [hlen, Lexer.loop_add, loop_comment_dispatch s r hs hr]
  simp only [Except.bind]
  rw [Lexer.embed_loop]
  cases Lexer.loop r.length (Lexer.new r) with
  | error e => rfl
  | ok lx =>
    simp [Except.map, Lexer.embed]

/-- C7 (line-comment boundary). For a comment body `s` without a newline and a
remainder `r` that is empty or does not begin with a newline, a token list
returned for `//`, `s`, newline, `r` starts with the Comment token whose value
is `//`, `s`, newline with span `(0, |s| + 2)`, and the remaining tokens are
those of `r` lexed on its own, at offsets moved by `|s| + 3`. -/
theorem Tokenise_line_comment (s r : Str) (toks : List Token) (hs : '\n' ∉ s)
    (hr : r = [] ∨ r.head? ≠ some '\n')
    (h : Tokenise ('/' :: '/' :: (s ++ '\n' :: r)) = Except.ok toks) :
    ∃ rest, Tokenise r = Except.ok rest ∧
      toks = ⟨'/' :: '/' :: (s ++ ['\n']), TokenType.kComment, (0, s.length + 2)⟩ ::
        rest.map (Token.shift (s.length + 3)) := by
  have hr2 : r.head? ≠ some '\n' := by
    rcases hr with rfl | hr
    · simp
    · exact hr
  rw [tokenise_after_comment s r hs hr2] at h
  cases hT : Tokenise r with
  | error e => rw [hT] at h; cases h
  | ok rest =>
    rw [hT] at h
    simp only [Except.map, Except.ok.injEq] at h
    exact ⟨rest, rfl, h.symm⟩

/-- Witness of C7: `// a`, newline, `b` gives the Comment with span (0,4) and the
Identifier `b` with span (5,5). -/
theorem Tokenise_line_comment_witness :
    Tokenise ['/', '/', ' ', 'a', '\n', 'b'] = Except.ok
      [⟨['/', '/', ' ', 'a', '\n'], TokenType.kComment, (0, 4)⟩,
       ⟨['b'], TokenType.kIdentifier, (5, 5)⟩] ∧
    ∃ rest, Tokenise ['b'] = Except.ok rest ∧
      [⟨['/', '/', ' ', 'a', '\n'], TokenType.kComment, (0, 4)⟩,
       ⟨['b'], TokenType.kIdentifier, (5, 5)⟩] =
      (⟨'/' :: '/' :: ([' ', 'a'] ++ ['\n']), TokenType.kComment, (0, [' ', 'a'].length + 2)⟩ ::
        rest.map (Token.shift ([' ', 'a'].length + 3)) : List Token) :=
  ⟨rfl, Tokenise_line_comment [' ', 'a'] ['b'] _ (by decide) (Or.inr (by decide)) rfl⟩


/-- C1 (round trip). When `Tokenise` returns a token list, every offset of the
buffer either lies in the inclusive span of exactly one token and was not
skipped, or was skipped by the whitespace branch, lies in no span and holds a
whitespace character other than the newline; and the token values and the
skipped characters, concatenated in offset order, are the buffer. -/
theorem Tokenise_round_trip (buffer : Str) (toks : List Token)
    (h : Tokenise buffer = Except.ok toks) :
    (∀ i, i < buffer.length →
      ((∃! t, t ∈ toks ∧ t.covers i) ∧ skippedAt buffer i = false) ∨
      (skippedAt buffer i = true ∧ (∀ t ∈ toks, ¬ t.covers i) ∧
        isspace (buffer.getD i default) = true ∧ buffer.getD i default ≠ '\n')) ∧
    reassemble buffer 0 toks = buffer := by
  have hseg := tokenise_seg buffer toks h
  refine ⟨?_, ?_⟩
  · intro i hi
    rcases seg_cover buffer _ toks 0 hseg i (Nat.zero_le _) hi with ⟨h1, h2⟩ | ⟨h1, h2⟩
    · exact Or.inl ⟨h1, by simpa using h2⟩
    · obtain ⟨_, g1, g2⟩ := skippedAt_space buffer i h1
      exact Or.inr ⟨h1, h2, g1, g2⟩
  · simpa using seg_reassemble buffer toks 0 (Nat.zero_le _) hseg

/-- Witness of C1 on the buffer `a b`: the tokens `a` and `b` around one skipped space. -/
theorem Tokenise_round_trip_witness :
    Tokenise ['a', ' ', 'b'] = Except.ok
        [⟨['a'], TokenType.kIdentifier, (0, 0)⟩, ⟨['b'], TokenType.kIdentifier, (2, 2)⟩] ∧
      reassemble ['a', ' ', 'b'] 0
        [⟨['a'], TokenType.kIdentifier, (0, 0)⟩, ⟨['b'], TokenType.kIdentifier, (2, 2)⟩] =
        ['a', ' ', 'b'] :=
  ⟨rfl, (Tokenise_round_trip ['a', ' ', 'b'] _ rfl).2⟩

/-- C2 (span order). The tokens returned by `Tokenise` have `start ≤ end`, and of
two consecutive tokens the end offset of the earlier is strictly less than the
start offset of the later. -/
theorem Tokenise_spans_increasing (buffer : Str) (toks : List Token)
    (h : Tokenise buffer = Except.ok toks) :
    (∀ t ∈ toks, t.position.1 ≤ t.position.2) ∧
    List.Chain' (fun a b : Token => a.position.2 < b.position.1) toks := by
  have hseg := tokenise_seg buffer toks h
  exact ⟨fun t ht => (seg_mem buffer _ toks 0 hseg t ht).2.1, seg_chain buffer _ toks 0 hseg⟩

/-- Witness of C2 on the buffer `f(x)`. -/
theorem Tokenise_spans_increasing_witness :
    Tokenise ['f', '(', 'x', ')'] = Except.ok
        [⟨['f'], TokenType.kIdentifier, (0, 0)⟩, ⟨['('], TokenType.kBreaker, (1, 1)⟩,
         ⟨['x'], TokenType.kIdentifier, (2, 2)⟩, ⟨[')'], TokenType.kBreaker, (3, 3)⟩] ∧
      List.Chain' (fun a b : Token => a.position.2 < b.position.1)
        [⟨['f'], TokenType.kIdentifier, (0, 0)⟩, ⟨['('], TokenType.kBreaker, (1, 1)⟩,
         ⟨['x'], TokenType.kIdentifier, (2, 2)⟩, ⟨[')'], TokenType.kBreaker, (3, 3)⟩] :=
  ⟨rfl, (Tokenise_spans_increasing ['f', '(', 'x', ')'] _ rfl).2⟩

/-- C3 (the fatal error). The empty buffer gives the empty token list. On a
non-empty buffer the scan reaches the last character without failing; there
the pending candidate is the buffer from the token start on, a non-empty
suffix. `Tokenise` fails exactly when that character is not skipped and the
candidate has no kind under `GetType`, the reported value is the candidate, and
in every other case a token list is returned. -/
theorem Tokenise_fatal_iff (buffer : Str) :
    (buffer = [] → Tokenise buffer = Except.ok []) ∧
    (buffer ≠ [] →
      ∃ lx, Lexer.loop (buffer.length - 1) (Lexer.new buffer) = Except.ok lx ∧
        lx.buffer_ = buffer ∧ lx.current_position_ = buffer.length - 1 ∧
        lx.CurrentState = buffer.drop lx.last_position_ ∧
        lx.CurrentState <:+ buffer ∧ lx.CurrentState ≠ [] ∧
        ((∃ v, Tokenise buffer = Except.error v) ↔
          (lx.skips = false ∧ GetType lx.CurrentState = none)) ∧
        (∀ v, Tokenise buffer = Except.error v → v = lx.CurrentState) ∧
        ((∃ toks, Tokenise buffer = Except.ok toks) ↔
          ¬ (lx.skips = false ∧ GetType lx.CurrentState = none))) := by
  refine ⟨?_, ?_⟩
  · rintro rfl; rfl
  · intro hne
    obtain ⟨lx, h1, hinv, h3, h4, h5⟩ := tokenise_last buffer hne
    have hpos : 0 < buffer.length := List.length_pos.2 hne
    have hc : lx.current_position_ < lx.buffer_.length := by rw [h3, h4]; omega
    have hcur : lx.CurrentState = buffer.drop lx.last_position_ := by
      rw [Lexer.currentState_eq lx hc, h4]
      apply List.take_of_length_le
      have := hinv.le
      simp only [List.length_drop]
      omega
    have hne2 : lx.CurrentState ≠ [] := by
      rw [hcur]
      intro hnil
      have hl := congrArg List.length hnil
      have := hinv.le
      simp only [List.length_drop, List.length_nil] at hl
      omega
    refine ⟨lx, h1, h4, h3, hcur, ?_, hne2, ?_⟩
    · rw [hcur]; exact List.drop_suffix _ _
    · rcases Lexer.body_cases lx with ⟨hs, hb⟩ | ⟨hs, hn, hb⟩ | ⟨hs, ty, hty, hb⟩ |
          ⟨hs, hty, _, hb⟩ <;> rw [hb] at h5 <;> rw [h5]
      · simp [hs]
      · rw [Lexer.nextState_isSome_iff, h4] at hn
        omega
      · simp [hs, hty]
      · simp [hs, hty]

/-- Witness of C3: the buffer `@` fails with the value `@`. -/
theorem Tokenise_fatal_iff_witness :
    (['@'] : Str) ≠ [] ∧ Tokenise ['@'] = Except.error ['@'] := by
  refine ⟨by decide, ?_⟩
  obtain ⟨lx, h1, _, _, _, _, _, h2, h3, _⟩ := (Tokenise_fatal_iff ['@']).2 (by decide)
  simp only [List.length_singleton, Nat.sub_self, Lexer.loop] at h1
  cases h1
  obtain ⟨v, hv⟩ := h2.2 ⟨by decide, by decide⟩
  rw [hv, h3 v hv]
  rfl

/-- C5 (faithful tokens). Every token returned by `Tokenise` has as value the
buffer slice from its start offset to its end offset inclusive, of length
`end - start + 1`, and `GetType` of the value alone is the recorded kind. -/
theorem Tokenise_token_faithful (buffer : Str) (toks : List Token)
    (h : Tokenise buffer = Except.ok toks) :
    ∀ t ∈ toks,
      t.value = (buffer.drop t.position.1).take (t.position.2 - t.position.1 + 1) ∧
      t.value.length = t.position.2 - t.position.1 + 1 ∧
      GetType t.value = some t.type := by
  intro t ht
  obtain ⟨_, h2, h3, h4, h5⟩ := seg_mem buffer _ toks 0 (tokenise_seg buffer toks h) t ht
  refine ⟨h4, ?_, h5⟩
  rw [h4, List.length_take, List.length_drop]
  omega

/-- Witness of C5 on the buffer `pub x`. -/
theorem Tokenise_token_faithful_witness :
    Tokenise ['p', 'u', 'b', ' ', 'x'] = Except.ok
        [⟨['p', 'u', 'b'], TokenType.kKeyword, (0, 2)⟩, ⟨['x'], TokenType.kIdentifier, (4, 4)⟩] ∧
      GetType ['p', 'u', 'b'] = some TokenType.kKeyword :=
  ⟨rfl, ((Tokenise_token_faithful ['p', 'u', 'b', ' ', 'x'] _ rfl)
    ⟨['p', 'u', 'b'], TokenType.kKeyword, (0, 2)⟩ (List.mem_cons_self _ _)).2.2⟩

/-- C6 (end-to-end scenario). On the seven characters `x := 1` and a newline
`Tokenise` returns Identifier `x` (0,0), Operator `:=` (2,3), Literal `1` (5,5),
Newline (6,6); the spaces at offsets 1 and 4 are skipped and in no span. -/
theorem Tokenise_assignment_line :
    Tokenise ['x', ' ', ':', '=', ' ', '1', '\n'] = Except.ok
        [⟨['x'], TokenType.kIdentifier, (0, 0)⟩, ⟨[':', '='], TokenType.kOperator, (2, 3)⟩,
         ⟨['1'], TokenType.kLiteral, (5, 5)⟩, ⟨['\n'], TokenType.kNewline, (6, 6)⟩] ∧
      (['x', ' ', ':', '=', ' ', '1', '\n'] : Str).length = 7 ∧
      skippedAt ['x', ' ', ':', '=', ' ', '1', '\n'] 1 = true ∧
      skippedAt ['x', ' ', ':', '=', ' ', '1', '\n'] 4 = true ∧
      ∀ t ∈ ([⟨['x'], TokenType.kIdentifier, (0, 0)⟩, ⟨[':', '='], TokenType.kOperator, (2, 3)⟩,
         ⟨['1'], TokenType.kLiteral, (5, 5)⟩, ⟨['\n'], TokenType.kNewline, (6, 6)⟩] : List Token),
        ¬ t.covers 1 ∧ ¬ t.covers 4 := by
  refine ⟨rfl, rfl, rfl, rfl, ?_⟩
  decide


/-- A candidate of letters, digits and underscores whose first character cannot
start a literal is a Keyword when it is in the keyword table and an Identifier
otherwise. -/
theorem getType_word (c : Char) (t : Str)
    (hc : ¬ (c = kStringBound ∨ c = kRuneBound ∨ c = 't' ∨ c = 'f' ∨ c = '_' ∨
      isdigit c = true ∨ c = '.' ∨ c = 'E' ∨ c = '+'))
    (hall : ∀ x ∈ c :: t, isalnum x = true ∨ x = '_') :
    GetType (c :: t) =
      if c :: t ∈ kKeywords then some TokenType.kKeyword else some TokenType.kIdentifier := by
  have hlit : isLiteral (c :: t) = false := by
    cases hl : isLiteral (c :: t)
    · rfl
    · exact absurd (isLiteral_head _ _ hl) hc
  have hword : utils.EveryCharIsUnderscoreOr (c :: t) isalnum = true := by
    simp only [utils.EveryCharIsUnderscoreOr, List.all_eq_true, Bool.or_eq_true,
      decide_eq_true_eq]
    intro x hx
    exact (hall x hx).symm
  simp only [GetType, hlit, Bool.false_eq_true, ↓reduceIte, utils.Includes, hword,
    decide_eq_true_eq]

/-- A word that cannot start a literal and is no keyword is one Identifier token. -/
theorem tokenise_word (c : Char) (t : Str)
    (hc : ¬ (c = kStringBound ∨ c = kRuneBound ∨ c = 't' ∨ c = 'f' ∨ c = '_' ∨
      isdigit c = true ∨ c = '.' ∨ c = 'E' ∨ c = '+'))
    (hall : ∀ x ∈ c :: t, isalnum x = true ∨ x = '_') (hnk : c :: t ∉ kKeywords) :
    Tokenise (c :: t) = Except.ok [⟨c :: t, TokenType.kIdentifier, (0, t.length)⟩] := by
  have hpre : ∀ j, ∃ a, GetType ((c :: t).take (j + 1)) = some a ∧
      utils.Includes kIdentifierBranches a = true := by
    intro j
    rw [List.take_succ_cons, getType_word c (t.take j) hc]
    · split
      · exact ⟨_, rfl, by decide⟩
      · exact ⟨_, rfl, by decide⟩
    · intro x hx
      apply hall x
      rcases List.mem_cons.1 hx with rfl | hm
      · exact List.mem_cons_self _ _
      · exact List.mem_cons_of_mem _ (List.mem_of_mem_take hm)
  have := tokenise_single (c :: t) (by simp) (by
      intro k hk _
      obtain ⟨j, rfl⟩ : ∃ j, k = j + 1 := ⟨k - 1, by omega⟩
      obtain ⟨a, ha, ha2⟩ := hpre j
      obtain ⟨b, hb, hb2⟩ := hpre (j + 1)
      exact ⟨a, b, ha, hb, Or.inr ⟨ha2, hb2⟩⟩)
    (by obtain ⟨a, ha, _⟩ := hpre 0; exact ⟨a, ha⟩)
    TokenType.kIdentifier (by rw [getType_word c t hc hall, if_neg hnk])
  simpa using this

/-- C8 (keyword prefix). For a keyword `k` among `pub`, `const`, `struct`, `enum`,
`use` and a non-empty `s` of letters, digits and underscores, `Tokenise` on
`k ++ s` returns one Identifier token whose value is `k ++ s` and whose span
is the whole buffer. -/
theorem Tokenise_keyword_grows (k s : Str)
    (hk : k ∈ ([['p', 'u', 'b'], ['c', 'o', 'n', 's', 't'], ['s', 't', 'r', 'u', 'c', 't'],
      ['e', 'n', 'u', 'm'], ['u', 's', 'e']] : List Str))
    (hs : s ≠ []) (hall : ∀ c ∈ s, isalnum c = true ∨ c = '_') :
    Tokenise (k ++ s) =
      Except.ok [⟨k ++ s, TokenType.kIdentifier, (0, (k ++ s).length - 1)⟩] := by
  have hallk : ∀ x ∈ k, isalnum x = true ∨ x = '_' := by
    simp only [List.mem_cons, List.mem_singleton, List.not_mem_nil, or_false] at hk
    rcases hk with rfl | rfl | rfl | rfl | rfl <;> decide
  have hall2 : ∀ x ∈ k ++ s, isalnum x = true ∨ x = '_' :=
    fun x hx => (List.mem_append.1 hx).elim (hallk x) (hall x)
  simp only [List.mem_cons, List.mem_singleton, List.not_mem_nil, or_false] at hk
  rcases hk with rfl | rfl | rfl | rfl | rfl
  all_goals
    simp only [List.cons_append, List.nil_append, List.length_cons, Nat.add_sub_cancel] at hall2 ⊢
    apply tokenise_word _ _ (by decide) hall2
    simp [kKeywords, hs]

/-- Witness of C8: `public` is one Identifier, not Keyword `pub` and Identifier `lic`. -/
theorem Tokenise_keyword_grows_witness :
    Tokenise (['p', 'u', 'b'] ++ ['l', 'i', 'c']) =
      Except.ok [⟨['p', 'u', 'b', 'l', 'i', 'c'], TokenType.kIdentifier, (0, 5)⟩] :=
  Tokenise_keyword_grows ['p', 'u', 'b'] ['l', 'i', 'c'] (by decide) (by decide) (by decide)


/-- C4, as stated, fails on the buffer `==`: each `=` alone is an Operator, yet
the two-character window `==` has no kind, so `Tokenise` dispatches one token
per character. -/
theorem Tokenise_maximal_munch_counterexample :
    (['=', '='] : Str) ≠ [] ∧
    (∀ c ∈ (['=', '='] : Str), GetType [c] = some TokenType.kOperator) ∧
    GetType ['=', '='] = none ∧
    Tokenise ['=', '='] = Except.ok
      [⟨['='], TokenType.kOperator, (0, 0)⟩, ⟨['='], TokenType.kOperator, (1, 1)⟩] ∧
    ¬ ∃ t : Token, Tokenise ['=', '='] = Except.ok [t] := by
  refine ⟨by decide, by decide, by decide, rfl, ?_⟩
  rintro ⟨t, ht⟩
  have h2 : Tokenise ['=', '='] = Except.ok
      [⟨['='], TokenType.kOperator, (0, 0)⟩, ⟨['='], TokenType.kOperator, (1, 1)⟩] := rfl
  rw [h2] at ht
  simp at ht

/-- C4 amended (maximal munch over the growing window). For a non-empty buffer
whose non-empty prefixes are all classified by `GetType` to the same kind, or
all to kinds of the Identifier/Keyword group, `Tokenise` returns exactly one
token: its value is the whole buffer, its kind that of the whole buffer and
its span `(0, length - 1)`. -/
theorem Tokenise_maximal_munch_windows (buffer : Str) (kind : TokenType) (hne : buffer ≠ [])
    (h : ∀ k, 0 < k → k ≤ buffer.length → ∃ ty, GetType (buffer.take k) = some ty ∧
      (ty = kind ∨ (ty ∈ kIdentifierBranches ∧ kind ∈ kIdentifierBranches))) :
    ∃ ty, GetType buffer = some ty ∧
      Tokenise buffer = Except.ok [⟨buffer, ty, (0, buffer.length - 1)⟩] := by
  have hpos : 0 < buffer.length := List.length_pos.2 hne
  obtain ⟨ty, hty, _⟩ := h buffer.length hpos (le_refl _)
  rw [List.take_length] at hty
  refine ⟨ty, hty, tokenise_single buffer hne ?_ ?_ ty hty⟩
  · intro k hk hlt
    obtain ⟨a, ha, ha2⟩ := h k hk (by omega)
    obtain ⟨b, hb, hb2⟩ := h (k + 1) (by omega) (by omega)
    refine ⟨a, b, ha, hb, ?_⟩
    simp only [utils.Includes, decide_eq_true_eq]
    rcases ha2 with rfl | ⟨ha3, hk3⟩
    · rcases hb2 with rfl | ⟨hb3, hk3⟩
      · exact Or.inl rfl
      · exact Or.inr ⟨hk3, hb3⟩
    · rcases hb2 with rfl | ⟨hb3, _⟩
      · exact Or.inr ⟨ha3, hk3⟩
      · exact Or.inr ⟨ha3, hb3⟩
  · obtain ⟨a, ha, _⟩ := h 1 (by omega) (by omega)
    exact ⟨a, ha⟩

/-- Witness of C4 amended on `pub`: the prefixes `p`, `pu` are Identifiers and
`pub` is a Keyword, one token results. -/
theorem Tokenise_maximal_munch_windows_witness :
    (['p', 'u', 'b'] : Str) ≠ [] ∧
    ∃ ty, GetType ['p', 'u', 'b'] = some ty ∧
      Tokenise ['p', 'u', 'b'] = Except.ok [⟨['p', 'u', 'b'], ty, (0, 3 - 1)⟩] :=
  ⟨by decide, Tokenise_maximal_munch_windows ['p', 'u', 'b'] TokenType.kIdentifier (by decide)
    (by
      intro k h1 h2
      simp only [List.length_cons, List.length_nil] at h2
      interval_cases k
      · exact ⟨TokenType.kIdentifier, by decide, Or.inl rfl⟩
      · exact ⟨TokenType.kIdentifier, by decide, Or.inl rfl⟩
      · exact ⟨TokenType.kKeyword, by decide, Or.inr (by decide)⟩)⟩

/-- C9 fails on the code: the candidate quote, `i`, `t`, backslash, quote starts
and ends with the string bound and has a backslash right before the closing
bound, and `GetType` returns Literal. The escape test compares the end of the
candidate with the character `'\\' + delim` (code 131), never with a backslash
followed by the bound. -/
theorem GetType_escaped_bound_is_literal :
    has_literal_bound [kStringBound, 'i', 't', kBackslash, kStringBound] kStringBound = true ∧
    GetType [kStringBound, 'i', 't', kBackslash, kStringBound] = some TokenType.kLiteral ∧
    GetType [kRuneBound, kBackslash, kRuneBound] = some TokenType.kLiteral ∧
    intToChar (kBackslash.toNat + kStringBound.toNat) = Char.ofNat 131 := by
  decide

/-- C10 (delimited literals). A candidate longer than one character that starts
and ends with the string bound, or starts and ends with the rune bound, and
whose character before the closing bound is not a backslash, is a Literal. -/
theorem GetType_delimited_literal (e : Str) (delim : Char)
    (hd : delim = kStringBound ∨ delim = kRuneBound) (hlen : 1 < e.length)
    (hs : e.head? = some delim) (he : e.getLast? = some delim)
    (_hesc : e.getD (e.length - 2) default ≠ kBackslash) :
    GetType e = some TokenType.kLiteral := by
  apply getType_of_isLiteral
  have hb : has_literal_bound e delim = true := by
    rw [has_literal_bound_iff e delim (by rcases hd with rfl | rfl <;> decide)]
    exact ⟨hlen, hs, he⟩
  rcases hd with rfl | rfl <;> simp [isLiteral, hb]

/-- Witness of C10: the rune literal with the one character `h`, and the empty
string literal of two string bounds. -/
theorem GetType_delimited_literal_witness :
    GetType [kRuneBound, 'h', kRuneBound] = some TokenType.kLiteral ∧
    GetType [kStringBound, kStringBound] = some TokenType.kLiteral :=
  ⟨GetType_delimited_literal [kRuneBound, 'h', kRuneBound] kRuneBound (Or.inr rfl)
      (by decide) (by decide) (by decide) (by decide),
   GetType_delimited_literal [kStringBound, kStringBound] kStringBound (Or.inl rfl)
      (by decide) (by decide) (by decide) (by decide)⟩


theorem getType_eq_literal (e : Str) :
    GetType e = some TokenType.kLiteral ↔ isLiteral e = true := by
  unfold GetType
  constructor
  · intro h
    by_contra hl
    simp only [hl, Bool.false_eq_true, ↓reduceIte] at h
    repeat' split at h
    all_goals cases h
  · intro h
    simp [h]

theorem getType_eq_keyword (e : Str) :
    GetType e = some TokenType.kKeyword ↔ isLiteral e = false ∧ e ∈ kKeywords := by
  unfold GetType
  cases hl : isLiteral e
  · simp only [Bool.false_eq_true, ↓reduceIte, utils.Includes, decide_eq_true_eq, true_and]
    constructor
    · intro h
      by_contra hk
      simp only [hk, ↓reduceIte] at h
      repeat' split at h
      all_goals cases h
    · intro h
      simp [h]
  · simp

theorem getType_eq_identifier (e : Str) :
    GetType e = some TokenType.kIdentifier ↔
      isLiteral e = false ∧ e ∉ kKeywords ∧ utils.EveryCharIsUnderscoreOr e isalnum = true := by
  unfold GetType
  cases hl : isLiteral e
  · simp only [Bool.false_eq_true, ↓reduceIte, utils.Includes, decide_eq_true_eq, true_and]
    by_cases hk : e ∈ kKeywords
    · simp [hk]
    · simp only [hk, ↓reduceIte, not_false_eq_true, true_and]
      cases hw : utils.EveryCharIsUnderscoreOr e isalnum
      · simp only [Bool.false_eq_true, ↓reduceIte, iff_false]
        intro h
        repeat' split at h
        all_goals cases h
      · simp
  · simp

theorem getType_eq_operator (e : Str) :
    GetType e = some TokenType.kOperator ↔
      isLiteral e = false ∧ e ∉ kKeywords ∧ utils.EveryCharIsUnderscoreOr e isalnum = false ∧
        e ∈ kOperators := by
  unfold GetType
  cases hl : isLiteral e
  · simp only [Bool.false_eq_true, ↓reduceIte, utils.Includes, decide_eq_true_eq, true_and]
    by_cases hk : e ∈ kKeywords
    · simp [hk]
    · simp only [hk, ↓reduceIte, not_false_eq_true, true_and]
      cases hw : utils.EveryCharIsUnderscoreOr e isalnum
      · simp only [Bool.false_eq_true, ↓reduceIte, true_and]
        constructor
        · intro h
          by_contra ho
          simp only [ho, ↓reduceIte] at h
          repeat' split at h
          all_goals cases h
        · intro h
          simp [h]
      · simp
  · simp


/-- C11 (keywords). The candidates `GetType` classifies as Keyword are exactly
`pub`, `const`, `struct`, `enum`, `use`. The empty string of the sixth slot of
the keyword table is a Literal and `public` is an Identifier. -/
theorem GetType_keyword_iff (e : Str) :
    (GetType e = some TokenType.kKeyword ↔
      e ∈ ([['p', 'u', 'b'], ['c', 'o', 'n', 's', 't'], ['s', 't', 'r', 'u', 'c', 't'],
        ['e', 'n', 'u', 'm'], ['u', 's', 'e']] : List Str)) ∧
    ([] : Str) ∈ kKeywords ∧ GetType [] = some TokenType.kLiteral ∧
    GetType ['p', 'u', 'b', 'l', 'i', 'c'] = some TokenType.kIdentifier := by
  refine ⟨?_, by decide, by decide, by decide⟩
  rw [getType_eq_keyword]
  constructor
  · rintro ⟨hl, hk⟩
    simp only [kKeywords, List.mem_cons, List.mem_singleton, List.not_mem_nil, or_false] at hk
    rcases hk with rfl | rfl | rfl | rfl | rfl | rfl
    · decide
    · decide
    · decide
    · decide
    · decide
    · exact absurd hl (by decide)
  · intro h
    simp only [List.mem_cons, List.mem_singleton, List.not_mem_nil, or_false] at h
    rcases h with rfl | rfl | rfl | rfl | rfl <;> decide

/-- C13 (decimal numbers). A candidate of digits and underscores is a Literal,
and so is a candidate of digits, underscores, `.`, `E` and `+` with exactly
one `.`. -/
theorem GetType_decimal_literal (e : Str) :
    ((∀ c ∈ e, isdigit c = true ∨ c = '_') → GetType e = some TokenType.kLiteral) ∧
    ((∀ c ∈ e, isdigit c = true ∨ c = '_' ∨ c = '.' ∨ c = 'E' ∨ c = '+') →
      e.count '.' = 1 → GetType e = some TokenType.kLiteral) := by
  constructor
  · intro h
    apply getType_of_isLiteral
    have hd : utils.EveryCharIsUnderscoreOr e isdigit = true := by
      simp only [utils.EveryCharIsUnderscoreOr, List.all_eq_true, Bool.or_eq_true,
        decide_eq_true_eq]
      intro c hc
      exact (h c hc).symm
    simp [isLiteral, hd]
  · intro h hcount
    apply getType_of_isLiteral
    have hd : utils.EveryCharIsUnderscoreOr e
        (fun ch => isdigit ch || utils.IsIn ch ['.', 'E', '+']) = true := by
      simp only [utils.EveryCharIsUnderscoreOr, utils.IsIn, List.all_eq_true, Bool.or_eq_true,
        decide_eq_true_eq, List.any_cons, List.any_nil, Bool.or_false]
      intro c hc
      have := h c hc
      tauto
    simp [isLiteral, hd, hcount]

/-- Witness of C13: `123` and `123.45`. -/
theorem GetType_decimal_literal_witness :
    GetType ['1', '2', '3'] = some TokenType.kLiteral ∧
    GetType ['1', '2', '3', '.', '4', '5'] = some TokenType.kLiteral :=
  ⟨(GetType_decimal_literal ['1', '2', '3']).1 (by decide),
   (GetType_decimal_literal ['1', '2', '3', '.', '4', '5']).2 (by decide) (by decide)⟩

/-- C14 (radix-prefixed numbers). The prefix `0b` followed by characters among
`0`, `1`, `_`, the prefix `0o` followed by characters among `0`..`7`, `_`, and
the prefix `0x` followed by hexadecimal digits of either case or `_`, are
Literals. -/
theorem GetType_radix_literal (rest : Str) :
    ((∀ c ∈ rest, c = '0' ∨ c = '1' ∨ c = '_') →
      GetType ('0' :: 'b' :: rest) = some TokenType.kLiteral) ∧
    ((∀ c ∈ rest, c ∈ ['0', '1', '2', '3', '4', '5', '6', '7'] ∨ c = '_') →
      GetType ('0' :: 'o' :: rest) = some TokenType.kLiteral) ∧
    ((∀ c ∈ rest, isxdigit c = true ∨ c = '_') →
      GetType ('0' :: 'x' :: rest) = some TokenType.kLiteral) := by
  refine ⟨?_, ?_, ?_⟩
  · intro h
    apply getType_of_isLiteral
    have hd : has_special_number_bound ('0' :: 'b' :: rest) ['0', 'b']
        (fun ch => utils.IsIn ch ['0', '1']) = true := by
      simp only [has_special_number_bound, utils.StartsWith, utils.EveryCharIsUnderscoreOr,
        utils.IsIn, List.all_eq_true, Bool.or_eq_true, Bool.and_eq_true,
        decide_eq_true_eq, List.any_cons, List.any_nil, Bool.or_false]
      refine ⟨rfl, ?_⟩
      intro c hc
      have := h c hc
      tauto
    simp [isLiteral, hd]
  · intro h
    apply getType_of_isLiteral
    have hd : has_special_number_bound ('0' :: 'o' :: rest) ['0', 'o']
        (fun ch => utils.IsIn ch ['0', '1', '2', '3', '4', '5', '6', '7']) = true := by
      simp only [has_special_number_bound, utils.StartsWith, utils.EveryCharIsUnderscoreOr,
        utils.IsIn, List.all_eq_true, Bool.or_eq_true, Bool.and_eq_true,
        decide_eq_true_eq, List.any_cons, List.any_nil, Bool.or_false]
      refine ⟨rfl, ?_⟩
      intro c hc
      have := h c hc
      simp only [List.mem_cons, List.mem_singleton, List.not_mem_nil, or_false] at this
      tauto
    simp [isLiteral, hd]
  · intro h
    apply getType_of_isLiteral
    have hd : has_special_number_bound ('0' :: 'x' :: rest) ['0', 'x'] isxdigit = true := by
      simp only [has_special_number_bound, utils.StartsWith, utils.EveryCharIsUnderscoreOr,
        List.all_eq_true, Bool.or_eq_true, Bool.and_eq_true, decide_eq_true_eq]
      refine ⟨rfl, ?_⟩
      intro c hc
      exact (h c hc).symm
    simp [isLiteral, hd]

/-- Witness of C14: `0b010101`, `0o12345670` and `0xffffff`. -/
theorem GetType_radix_literal_witness :
    GetType ['0', 'b', '0', '1', '0', '1', '0', '1'] = some TokenType.kLiteral ∧
    GetType ['0', 'o', '1', '2', '3', '4', '5', '6', '7', '0'] = some TokenType.kLiteral ∧
    GetType ['0', 'x', 'f', 'f', 'f', 'f', 'f', 'f'] = some TokenType.kLiteral :=
  ⟨(GetType_radix_literal ['0', '1', '0', '1', '0', '1']).1 (by decide),
   (GetType_radix_literal ['1', '2', '3', '4', '5', '6', '7', '0']).2.1 (by decide),
   (GetType_radix_literal ['f', 'f', 'f', 'f', 'f', 'f']).2.2 (by decide)⟩

/-- C16 (operators). The candidates `GetType` classifies as Operator are exactly
`:=`, `=`, `+`, `-`, `*`, `/`; the colon alone has no kind. -/
theorem GetType_operator_iff (e : Str) :
    (GetType e = some TokenType.kOperator ↔
      e ∈ ([[':', '='], ['='], ['+'], ['-'], ['*'], ['/']] : List Str)) ∧
    GetType [':', '='] = some TokenType.kOperator ∧ GetType [':'] = none := by
  refine ⟨?_, by decide, by decide⟩
  constructor
  · intro h
    exact ((getType_eq_operator e).1 h).2.2.2
  · intro h
    simp only [List.mem_cons, List.mem_singleton, List.not_mem_nil, or_false] at h
    rcases h with rfl | rfl | rfl | rfl | rfl | rfl <;> decide


theorem everyChar_iff (e : Str) (p : Char → Bool) :
    utils.EveryCharIsUnderscoreOr e p = true ↔ ∀ c ∈ e, c = '_' ∨ p c = true := by
  simp [utils.EveryCharIsUnderscoreOr, List.all_eq_true]

theorem special_iff (e : Str) (x : Char) (p : Char → Bool) :
    has_special_number_bound e ['0', x] p = true ↔
      ∃ rest, e = '0' :: x :: rest ∧ ∀ c ∈ rest, c = '_' ∨ p c = true := by
  unfold has_special_number_bound
  rw [Bool.and_eq_true, everyChar_iff]
  simp only [utils.StartsWith, decide_eq_true_eq, List.length_cons, List.length_nil]
  constructor
  · rintro ⟨h1, h2⟩
    match e, h1, h2 with
    | a :: b :: rest, h1, h2 =>
      simp only [List.take_succ_cons, List.take_zero, List.cons.injEq, and_true] at h1
      obtain ⟨rfl, rfl⟩ := h1
      exact ⟨rest, rfl, by simpa using h2⟩
  · rintro ⟨rest, rfl, h⟩
    exact ⟨by simp, by simpa using h⟩

/-- The literal rules of `GetType`, rule by rule. -/
theorem isLiteral_iff (e : Str) :
    isLiteral e = true ↔
      (1 < e.length ∧ e.head? = some kStringBound ∧ e.getLast? = some kStringBound) ∨
      (1 < e.length ∧ e.head? = some kRuneBound ∧ e.getLast? = some kRuneBound) ∨
      e = ['t', 'r', 'u', 'e'] ∨ e = ['f', 'a', 'l', 's', 'e'] ∨
      (∀ c ∈ e, c = '_' ∨ isdigit c = true) ∨
      ((∀ c ∈ e, c = '_' ∨ isdigit c = true ∨ c = '.' ∨ c = 'E' ∨ c = '+') ∧
        e.count '.' = 1) ∨
      (∃ rest, e = '0' :: 'b' :: rest ∧ ∀ c ∈ rest, c = '_' ∨ c = '0' ∨ c = '1') ∨
      (∃ rest, e = '0' :: 'o' :: rest ∧
        ∀ c ∈ rest, c = '_' ∨ c ∈ ['0', '1', '2', '3', '4', '5', '6', '7']) ∨
      (∃ rest, e = '0' :: 'x' :: rest ∧ ∀ c ∈ rest, c = '_' ∨ isxdigit c = true) := by
  unfold isLiteral
  simp only [Bool.or_eq_true, Bool.and_eq_true, decide_eq_true_eq,
    has_literal_bound_iff e kStringBound (by decide),
    has_literal_bound_iff e kRuneBound (by decide), everyChar_iff, special_iff,
    utils.IsIn, kBoolValues, List.any_cons, List.any_nil, Bool.or_false,
    List.mem_cons, List.mem_singleton, List.not_mem_nil, or_false, or_assoc]


theorem alpha_not_digit (c : Char) (h : isalpha c = true) : ¬ (c = '_' ∨ isdigit c = true) := by
  simp only [isalpha, isdigit, Bool.or_eq_true, Bool.and_eq_true, decide_eq_true_eq] at h ⊢
  rintro (rfl | hd)
  · revert h; decide
  · omega

theorem mem_of_count_one (e : Str) (c : Char) (h : e.count c = 1) : c ∈ e := by
  apply List.count_pos_iff.1
  omega

/-- C12 (identifiers). The candidates `GetType` classifies as Identifier are
exactly those of letters, digits and underscores that no earlier rule takes:
non-empty, not `true` or `false`, not digits and underscores only, not a
radix-prefixed number and not a keyword. The word `a_var_name` is one. -/
theorem GetType_identifier_iff (e : Str) :
    (GetType e = some TokenType.kIdentifier ↔
      (∀ c ∈ e, c = '_' ∨ isalnum c = true) ∧ e ≠ [] ∧
      e ≠ ['t', 'r', 'u', 'e'] ∧ e ≠ ['f', 'a', 'l', 's', 'e'] ∧
      ¬ (∀ c ∈ e, c = '_' ∨ isdigit c = true) ∧
      ¬ (∃ rest, e = '0' :: 'b' :: rest ∧ ∀ c ∈ rest, c = '_' ∨ c = '0' ∨ c = '1') ∧
      ¬ (∃ rest, e = '0' :: 'o' :: rest ∧
          ∀ c ∈ rest, c = '_' ∨ c ∈ ['0', '1', '2', '3', '4', '5', '6', '7']) ∧
      ¬ (∃ rest, e = '0' :: 'x' :: rest ∧ ∀ c ∈ rest, c = '_' ∨ isxdigit c = true) ∧
      e ∉ ([['p', 'u', 'b'], ['c', 'o', 'n', 's', 't'], ['s', 't', 'r', 'u', 'c', 't'],
        ['e', 'n', 'u', 'm'], ['u', 's', 'e']] : List Str)) ∧
    GetType ['a', '_', 'v', 'a', 'r', '_', 'n', 'a', 'm', 'e'] = some TokenType.kIdentifier := by
  refine ⟨?_, by decide⟩
  rw [getType_eq_identifier, everyChar_iff]
  constructor
  · rintro ⟨hl, hk, hw⟩
    have hno : ¬ isLiteral e = true := by simp [hl]
    rw [isLiteral_iff] at hno
    refine ⟨hw, ?_, ?_, ?_, ?_, ?_, ?_, ?_, ?_⟩
    · rintro rfl
      exact hno (Or.inr (Or.inr (Or.inr (Or.inr (Or.inl (by simp))))))
    · intro h; exact hno (Or.inr (Or.inr (Or.inl h)))
    · intro h; exact hno (Or.inr (Or.inr (Or.inr (Or.inl h))))
    · intro h; exact hno (Or.inr (Or.inr (Or.inr (Or.inr (Or.inl h)))))
    · intro h
      exact hno (Or.inr (Or.inr (Or.inr (Or.inr (Or.inr (Or.inr (Or.inl h)))))))
    · intro h
      exact hno (Or.inr (Or.inr (Or.inr (Or.inr (Or.inr (Or.inr (Or.inr (Or.inl h))))))))
    · intro h
      exact hno (Or.inr (Or.inr (Or.inr (Or.inr (Or.inr (Or.inr (Or.inr (Or.inr h))))))))
    · intro h
      apply hk
      simp only [List.mem_cons, List.mem_singleton, List.not_mem_nil, or_false] at h
      rcases h with rfl | rfl | rfl | rfl | rfl <;> decide
  · rintro ⟨hw, hne, ht, hf, hd, hb, ho, hx, hfive⟩
    refine ⟨?_, ?_, hw⟩
    · cases hl : isLiteral e
      · rfl
      · exfalso
        rcases (isLiteral_iff e).1 hl with h | h | h | h | h | h | h | h | h
        · have := hw _ (List.mem_of_mem_head? h.2.1)
          revert this; decide
        · have := hw _ (List.mem_of_mem_head? h.2.1)
          revert this; decide
        · exact ht h
        · exact hf h
        · exact hd h
        · have := hw _ (mem_of_count_one e '.' h.2)
          revert this; decide
        · exact hb h
        · exact ho h
        · exact hx h
    · intro hk
      simp only [kKeywords, List.mem_cons, List.mem_singleton, List.not_mem_nil, or_false] at hk
      simp only [List.mem_cons, List.mem_singleton, List.not_mem_nil, or_false] at hfive
      rcases hk with h | h | h | h | h | h
      · exact hfive (Or.inl h)
      · exact hfive (Or.inr (Or.inl h))
      · exact hfive (Or.inr (Or.inr (Or.inl h)))
      · exact hfive (Or.inr (Or.inr (Or.inr (Or.inl h))))
      · exact hfive (Or.inr (Or.inr (Or.inr (Or.inr h))))
      · exact hne h

/-- C15 (boolean literals). A non-empty candidate of letters only is a Literal
exactly when it is `true` or `false`. -/
theorem GetType_bool_exact (e : Str) (hne : e ≠ []) (halpha : ∀ c ∈ e, isalpha c = true) :
    GetType e = some TokenType.kLiteral ↔
      e = ['t', 'r', 'u', 'e'] ∨ e = ['f', 'a', 'l', 's', 'e'] := by
  rw [getType_eq_literal, isLiteral_iff]
  constructor
  · intro h
    rcases h with h | h | h | h | h | h | ⟨r, rfl, _⟩ | ⟨r, rfl, _⟩ | ⟨r, rfl, _⟩
    · have := halpha _ (List.mem_of_mem_head? h.2.1)
      exact absurd this (by decide)
    · have := halpha _ (List.mem_of_mem_head? h.2.1)
      exact absurd this (by decide)
    · exact Or.inl h
    · exact Or.inr h
    · obtain ⟨c, t, rfl⟩ := List.exists_cons_of_ne_nil hne
      exact absurd (h c (List.mem_cons_self _ _))
        (alpha_not_digit c (halpha c (List.mem_cons_self _ _)))
    · have := halpha _ (mem_of_count_one e '.' h.2)
      exact absurd this (by decide)
    · have := halpha '0' (List.mem_cons_self _ _)
      exact absurd this (by decide)
    · have := halpha '0' (List.mem_cons_self _ _)
      exact absurd this (by decide)
    · have := halpha '0' (List.mem_cons_self _ _)
      exact absurd this (by decide)
  · intro h
    exact Or.inr (Or.inr (by tauto))

/-- Witness of C15: `true` and `false` are Literals, `trUe` is not. -/
theorem GetType_bool_exact_witness :
    GetType ['t', 'r', 'u', 'e'] = some TokenType.kLiteral ∧
    GetType ['f', 'a', 'l', 's', 'e'] = some TokenType.kLiteral ∧
    GetType ['t', 'r', 'U', 'e'] ≠ some TokenType.kLiteral :=
  ⟨(GetType_bool_exact ['t', 'r', 'u', 'e'] (by decide) (by decide)).2 (Or.inl rfl),
   (GetType_bool_exact ['f', 'a', 'l', 's', 'e'] (by decide) (by decide)).2 (Or.inr rfl),
   fun h => absurd ((GetType_bool_exact ['t', 'r', 'U', 'e'] (by decide) (by decide)).1 h)
     (by decide)⟩


theorem startsWith_iff (e p : Str) : utils.StartsWith e p = true ↔ p <+: e := by
  simp only [utils.StartsWith, decide_eq_true_eq]
  constructor
  · intro h
    have := List.take_append_drop p.length e
    rw [h] at this
    exact ⟨e.drop p.length, this⟩
  · rintro ⟨t, rfl⟩
    simp

theorem endsWith_iff (e p : Str) : utils.EndsWith e p = true ↔ p <:+ e := by
  simp only [utils.EndsWith, Bool.and_eq_true, decide_eq_true_eq]
  constructor
  · rintro ⟨hlen, h⟩
    have hd : (e.drop (e.length - p.length)).take p.length = e.drop (e.length - p.length) := by
      apply List.take_of_length_le
      simp only [List.length_drop]
      omega
    rw [hd] at h
    have := List.take_append_drop (e.length - p.length) e
    rw [h] at this
    exact ⟨e.take (e.length - p.length), this⟩
  · rintro ⟨t, rfl⟩
    simp

theorem getType_eq_comment (e : Str) :
    GetType e = some TokenType.kComment ↔
      isLiteral e = false ∧ e ∉ kKeywords ∧ utils.EveryCharIsUnderscoreOr e isalnum = false ∧
        e ∉ kOperators ∧ e ∉ kBreakers ∧ e ≠ ['\n'] ∧
        utils.AnyOfCommentPair (fun pair =>
          utils.StartsWith e pair.1 && utils.EndsWith e pair.2) = true := by
  unfold GetType
  cases hl : isLiteral e
  · simp only [Bool.false_eq_true, ↓reduceIte, utils.Includes, decide_eq_true_eq, true_and]
    by_cases hk : e ∈ kKeywords
    · simp [hk]
    · simp only [hk, ↓reduceIte, not_false_eq_true, true_and]
      cases hw : utils.EveryCharIsUnderscoreOr e isalnum
      · simp only [Bool.false_eq_true, ↓reduceIte, true_and]
        by_cases ho : e ∈ kOperators
        · simp [ho]
        · simp only [ho, ↓reduceIte, not_false_eq_true, true_and]
          by_cases hb : e ∈ kBreakers
          · simp [hb]
          · simp only [hb, ↓reduceIte, not_false_eq_true, true_and]
            by_cases hn : e = ['\n']
            · simp [hn]
            · simp only [hn, ↓reduceIte, not_false_eq_true, true_and]
              split <;> simp_all
      · simp
  · simp

/-- A candidate that starts with `/` and has a second character is a Comment
when a comment pair bounds it and has no kind otherwise. -/
theorem getType_slash (c : Char) (t : Str) :
    GetType ('/' :: c :: t) = some TokenType.kComment ↔
      utils.AnyOfCommentPair (fun pair => utils.StartsWith ('/' :: c :: t) pair.1 &&
        utils.EndsWith ('/' :: c :: t) pair.2) = true := by
  rw [getType_eq_comment]
  have hlit : isLiteral ('/' :: c :: t) = false := by
    cases hl : isLiteral ('/' :: c :: t)
    · rfl
    · have := isLiteral_head _ _ hl
      revert this
      decide
  have hal : isalnum '/' = false := by decide
  constructor
  · intro h
    exact h.2.2.2.2.2.2
  · intro h
    refine ⟨hlit, ?_, ?_, ?_, ?_, ?_, h⟩
    · simp [kKeywords]
    · simp [utils.EveryCharIsUnderscoreOr, hal]
    · simp [kOperators]
    · simp [kBreakers]
    · simp

/-- C17 (comments). The candidates `GetType` classifies as Comment are exactly
those that start with `//` and end with a newline, or start with `/*` and end
with `*/`, the two ends tested independently. The inline, block and multi-line
block comments of the tests are Comments. -/
theorem GetType_comment_iff (e : Str) :
    (GetType e = some TokenType.kComment ↔
      (['/', '/'] <+: e ∧ ['\n'] <:+ e) ∨ (['/', '*'] <+: e ∧ ['*', '/'] <:+ e)) ∧
    GetType ['/', '/', 'i', 'n', 'l', 'i', 'n', 'e', ' ', 'c', 'o', 'm', 'm', 'e', 'n', 't', '\n']
      = some TokenType.kComment ∧
    GetType ['/', '*', ' ', 'b', 'l', 'o', 'c', 'k', ' ', 'c', 'o', 'm', 'm', 'e', 'n', 't', ' ',
      '*', '/'] = some TokenType.kComment ∧
    GetType ['/', '*', 'm', 'u', 'l', 't', 'i', '\n', 'l', 'i', 'n', 'e', '\n', '\t', '\t',
      'c', 'o', 'm', 'm', 'e', 'n', 't', '\n', '\n', '*', '/'] = some TokenType.kComment := by
  refine ⟨?_, by decide, by decide, by decide⟩
  have hpairs : ∀ x : Str, utils.AnyOfCommentPair (fun pair =>
      utils.StartsWith x pair.1 && utils.EndsWith x pair.2) = true ↔
      (['/', '/'] <+: x ∧ ['\n'] <:+ x) ∨ (['/', '*'] <+: x ∧ ['*', '/'] <:+ x) := by
    intro x
    simp only [utils.AnyOfCommentPair, kCommentPairs, List.any_cons, List.any_nil,
      Bool.or_false, Bool.or_eq_true, Bool.and_eq_true, startsWith_iff, endsWith_iff]
  constructor
  · intro h
    exact (hpairs e).1 ((getType_eq_comment e).1 h).2.2.2.2.2.2
  · intro h
    have hp : ∃ c t, e = '/' :: c :: t := by
      rcases h with ⟨⟨t, rfl⟩, _⟩ | ⟨⟨t, rfl⟩, _⟩
      · exact ⟨'/', t, rfl⟩
      · exact ⟨'*', t, rfl⟩
    obtain ⟨c, t, rfl⟩ := hp
    exact (getType_slash c t).2 ((hpairs _).2 h)


/-- Every non-empty window of digits, one `.` and a tail over digits, `_`, `E`
and `+` is a Literal, by the integer rule before the `.` and by the float rule
from it on. -/
theorem getType_float_window (a r : Str) (hda : ∀ c ∈ a, isdigit c = true)
    (hr : ∀ c ∈ r, isdigit c = true ∨ c = '_' ∨ c = 'E' ∨ c = '+') (k : Nat) :
    GetType ((a ++ '.' :: r).take k) = some TokenType.kLiteral := by
  rw [getType_eq_literal, isLiteral_iff]
  by_cases hk : k ≤ a.length
  · rw [List.take_append_of_le_length hk]
    refine Or.inr (Or.inr (Or.inr (Or.inr (Or.inl ?_))))
    intro c hc
    exact Or.inr (hda c (List.mem_of_mem_take hc))
  · obtain ⟨j, rfl⟩ : ∃ j, k = a.length + (j + 1) := ⟨k - a.length - 1, by omega⟩
    rw [List.take_append, List.take_succ_cons]
    refine Or.inr (Or.inr (Or.inr (Or.inr (Or.inr (Or.inl ⟨?_, ?_⟩)))))
    · intro c hc
      rcases List.mem_append.1 hc with h | h
      · exact Or.inr (Or.inl (hda c h))
      · rcases List.mem_cons.1 h with rfl | h
        · exact Or.inr (Or.inr (Or.inl rfl))
        · have := hr c (List.mem_of_mem_take h)
          tauto
    · have na : '.' ∉ a := fun hm => absurd (hda '.' hm) (by decide)
      have nr : '.' ∉ r.take j := fun hm =>
        absurd (hr '.' (List.mem_of_mem_take hm)) (by decide)
      rw [List.count_append, List.count_cons_self, List.count_eq_zero_of_not_mem na,
        List.count_eq_zero_of_not_mem nr]

/-- C19 (a float absorbs a following `+`). For non-empty digits `a` and a tail `r`
over digits, `_`, `E` and `+`, `Tokenise` on `a`, `.`, `r` returns one Literal
token whose value is the whole buffer. -/
theorem Tokenise_float_absorbs (a r : Str) (_ha : a ≠ []) (hda : ∀ c ∈ a, isdigit c = true)
    (hr : ∀ c ∈ r, isdigit c = true ∨ c = '_' ∨ c = 'E' ∨ c = '+') :
    Tokenise (a ++ '.' :: r) = Except.ok
      [⟨a ++ '.' :: r, TokenType.kLiteral, (0, (a ++ '.' :: r).length - 1)⟩] := by
  have hw := getType_float_window a r hda hr
  apply tokenise_single (a ++ '.' :: r) (by simp)
  · intro k _ _
    exact ⟨_, _, hw k, hw (k + 1), Or.inl rfl⟩
  · exact ⟨_, hw 1⟩
  · have := hw (a ++ '.' :: r).length
    rwa [List.take_length] at this

/-- Witness of C19: `1.5+2` is the single Literal with span (0,4). -/
theorem Tokenise_float_absorbs_witness :
    Tokenise (['1'] ++ '.' :: ['5', '+', '2']) = Except.ok
      [⟨['1', '.', '5', '+', '2'], TokenType.kLiteral, (0, 4)⟩] :=
  Tokenise_float_absorbs ['1'] ['5', '+', '2'] (by decide) (by decide) (by decide)


theorem take_replicate_append (c : Char) (r : Str) (k m : Nat) (h : m ≤ k) :
    (List.replicate k c ++ r).take m = List.replicate m c := by
  rw [List.take_append_of_le_length (by simpa using h), List.take_replicate,
    Nat.min_eq_left h]

theorem getLast?_append_replicate (s : Str) (c : Char) (m : Nat) :
    (s ++ List.replicate (m + 1) c).getLast? = some c := by
  rw [List.replicate_succ', ← List.append_assoc, List.getLast?_append]
  simp

/-- After the body of a line comment the candidate keeps growing over
consecutive newlines: the window that ends with a newline and the window one
newline longer are both Comments. -/
theorem loop_comment_newlines (s r : Str) (k : Nat) (hs : '\n' ∉ s) :
    ∀ j, j < k →
      Lexer.loop (s.length + 2 + j)
          (Lexer.new ('/' :: '/' :: (s ++ (List.replicate k '\n' ++ r)))) =
        Except.ok (Lexer.mk ('/' :: '/' :: (s ++ (List.replicate k '\n' ++ r))) 0
          (s.length + 2 + j) []) := by
  have hlen : ('/' :: '/' :: (s ++ (List.replicate k '\n' ++ r))).length =
      s.length + 2 + k + r.length := by
    simp; omega
  intro j
  induction j with
  | zero =>
    intro hk
    exact loop_comment_body s _ hs (s.length + 2) (le_refl _) (by rw [hlen]; omega)
  | succ j ih =>
    intro hk
    rw [← Nat.add_assoc, Lexer.loop_succ_right _ _ _ (ih (by omega)), Lexer.loop_one]
    have hc : s.length + 2 + j < ('/' :: '/' :: (s ++ (List.replicate k '\n' ++ r))).length := by
      rw [hlen]; omega
    simp only [hc, ↓reduceIte]
    have hbody : (Lexer.mk ('/' :: '/' :: (s ++ (List.replicate k '\n' ++ r))) 0
          (s.length + 2 + j) []).body =
        Except.ok (Lexer.mk ('/' :: '/' :: (s ++ (List.replicate k '\n' ++ r))) 0
          (s.length + 2 + j) []) := by
      apply Lexer.body_of_compatible _ TokenType.kComment TokenType.kComment
        ('/' :: '/' :: (s ++ List.replicate (j + 2) '\n'))
        (Lexer.skips_false_of_ne _ (by simp; omega))
      · rw [Lexer.currentState_eq _ hc]
        simp only [List.drop_zero, Nat.sub_zero]
        rw [show s.length + 2 + j + 1 = (s.length + (j + 1)) + 1 + 1 by omega,
          List.take_succ_cons, List.take_succ_cons, List.take_append,
          take_replicate_append _ _ _ _ (by omega), getType_comment_line,
          if_pos (getLast?_append_replicate s '\n' j)]
      · rw [Lexer.nextState_eq _ (by rw [hlen]; simp only; omega)]
        simp only [List.drop_zero, Nat.sub_zero]
        rw [show s.length + 2 + j + 1 + 1 = (s.length + (j + 2)) + 1 + 1 by omega,
          List.take_succ_cons, List.take_succ_cons, List.take_append,
          take_replicate_append _ _ _ _ (by omega)]
      · rw [getType_comment_line, if_pos (getLast?_append_replicate s '\n' (j + 1))]
      · exact Or.inl rfl
    rw [hbody]
    rfl


/-- When the scan stands on a newline with the whole text from `//` on as its
candidate, and the next character is not a newline, the candidate is
dispatched as one Comment and the scan goes on as the scan of the remainder. -/
theorem loop_comment_close (t r : Str) (hr : r.head? ≠ some '\n')
    (hreach : Lexer.loop (t.length + 2) (Lexer.new ('/' :: '/' :: (t ++ '\n' :: r))) =
      Except.ok (Lexer.mk ('/' :: '/' :: (t ++ '\n' :: r)) 0 (t.length + 2) [])) :
    Lexer.loop (t.length + 3) (Lexer.new ('/' :: '/' :: (t ++ '\n' :: r))) =
      Except.ok ((Lexer.new r).embed ('/' :: '/' :: (t ++ ['\n']))
        [⟨'/' :: '/' :: (t ++ ['\n']), TokenType.kComment, (0, t.length + 2)⟩]) := by
  have hlen : ('/' :: '/' :: (t ++ '\n' :: r)).length = t.length + 3 + r.length := by
    simp; omega
  rw [Lexer.loop_succ_right _ _ _ hreach, Lexer.loop_one]
  have hc : t.length + 2 < ('/' :: '/' :: (t ++ '\n' :: r)).length := by rw [hlen]; omega
  simp only [hc, ↓reduceIte]
  have hskip : (Lexer.mk ('/' :: '/' :: (t ++ '\n' :: r)) 0 (t.length + 2) []).skips = false :=
    Lexer.skips_false_of_ne _ (by simp)
  have hcur : (Lexer.mk ('/' :: '/' :: (t ++ '\n' :: r)) 0 (t.length + 2) []).CurrentState =
      '/' :: '/' :: (t ++ ['\n']) := by
    rw [Lexer.currentState_eq _ hc]
    simp only [List.drop_zero, Nat.sub_zero, List.take_succ_cons]
    rw [List.take_append]
    simp
  have hty : GetType ('/' :: '/' :: (t ++ ['\n'])) = some TokenType.kComment := by
    rw [getType_comment_line]; simp
  have hbody : (Lexer.mk ('/' :: '/' :: (t ++ '\n' :: r)) 0 (t.length + 2) []).body =
      Except.ok ((Lexer.mk ('/' :: '/' :: (t ++ '\n' :: r)) 0 (t.length + 2) []).dispatch
        ('/' :: '/' :: (t ++ ['\n'])) TokenType.kComment) := by
    cases r with
    | nil =>
      have := Lexer.body_of_none_next _ TokenType.kComment hskip (by rw [hcur]; exact hty)
        (by rw [Lexer.nextState_eq_none_iff]; simp)
      rw [hcur] at this
      exact this
    | cons c r2 =>
      have hcn : c ≠ '\n' := by
        intro h; apply hr; simp [h]
      have hnext : (Lexer.mk ('/' :: '/' :: (t ++ '\n' :: c :: r2)) 0 (t.length + 2) []).NextState =
          some ('/' :: '/' :: (t ++ ['\n', c])) := by
        rw [Lexer.nextState_eq _ (by simp; omega)]
        simp only [List.drop_zero, Nat.sub_zero, List.take_succ_cons]
        rw [List.take_append]
        simp
      have := Lexer.body_of_untyped_next _ TokenType.kComment _ hskip
        (by rw [hcur]; exact hty) hnext
        (by simp [utils.AnyOfCommentPair, kCommentPairs])
        (by
          rw [getType_comment_line, if_neg]
          simp [List.getLast?_append, hcn])
      rw [hcur] at this
      exact this
  rw [hbody]
  simp [Lexer.dispatch, Lexer.update_pos, Lexer.advance, Lexer.embed, Lexer.new]

/-- A line comment followed by `k` newlines is one Comment token, and the scan
continues as the scan of the remainder. -/
theorem tokenise_after_comment_lines (s r : Str) (k : Nat) (hs : '\n' ∉ s) (hk : 1 ≤ k)
    (hr : r.head? ≠ some '\n') :
    Tokenise ('/' :: '/' :: (s ++ (List.replicate k '\n' ++ r))) =
      (Tokenise r).map (fun rest =>
        ⟨'/' :: '/' :: (s ++ List.replicate k '\n'), TokenType.kComment, (0, s.length + k + 1)⟩ ::
          rest.map (Token.shift (s.length + k + 2))) := by
  obtain ⟨m, rfl⟩ : ∃ m, k = m + 1 := ⟨k - 1, by omega⟩
  have hreach := loop_comment_newlines s r (m + 1) hs m (by omega)
  have hbuf : '/' :: '/' :: (s ++ (List.replicate (m + 1) '\n' ++ r)) =
      '/' :: '/' :: ((s ++ List.replicate m '\n') ++ '\n' :: r) := by
    simp [List.replicate_succ', List.append_assoc]
  have hval : '/' :: '/' :: (s ++ List.replicate (m + 1) '\n') =
      '/' :: '/' :: ((s ++ List.replicate m '\n') ++ ['\n']) := by
    simp [List.replicate_succ', List.append_assoc]
  have htl : (s ++ List.replicate m '\n').length = s.length + m := by simp
  rw [hbuf] at hreach ⊢
  rw [hval]
  have hclose := loop_comment_close (s ++ List.replicate m '\n') r hr
    (by rw [htl]; rw [show s.length + m + 2 = s.length + 2 + m by omega]; exact hreach)
  have hlen : ('/' :: '/' :: ((s ++ List.replicate m '\n') ++ '\n' :: r)).length =
      ((s ++ List.replicate m '\n').length + 3) + r.length := by
    simp; omega
  unfold Tokenise
  rw [hlen, Lexer.loop_add, hclose]
  simp only [Except.bind]
  rw [Lexer.embed_loop]
  cases Lexer.loop r.length (Lexer.new r) with
  | error e => rfl
  | ok lx =>
    simp [Except.map, Lexer.embed]
    omega

/-- C20 (a line comment absorbs the blank lines after it). For a comment body `s`
without a newline, `k ≥ 1` newlines and a remainder `r` that is empty or does
not begin with a newline, a token list returned for `//`, `s`, the newlines,
`r` starts with one Comment token whose value is `//`, `s` and all `k`
newlines; the remaining tokens are those of `r` at offsets moved by
`|s| + k + 2`, so no Newline token lies on any of the `k` newlines. -/
theorem Tokenise_comment_blank_lines (s r : Str) (k : Nat) (toks : List Token)
    (hs : '\n' ∉ s) (hk : 1 ≤ k) (hr : r = [] ∨ r.head? ≠ some '\n')
    (h : Tokenise ('/' :: '/' :: (s ++ (List.replicate k '\n' ++ r))) = Except.ok toks) :
    ∃ rest, Tokenise r = Except.ok rest ∧
      toks = ⟨'/' :: '/' :: (s ++ List.replicate k '\n'), TokenType.kComment,
          (0, s.length + k + 1)⟩ :: rest.map (Token.shift (s.length + k + 2)) ∧
      ∀ t ∈ toks, t.type = TokenType.kNewline → s.length + k + 2 ≤ t.position.1 := by
  have hr2 : r.head? ≠ some '\n' := by
    rcases hr with rfl | hr
    · simp
    · exact hr
  rw [tokenise_after_comment_lines s r k hs hk hr2] at h
  cases hT : Tokenise r with
  | error e => rw [hT] at h; cases h
  | ok rest =>
    rw [hT] at h
    simp only [Except.map, Except.ok.injEq] at h
    refine ⟨rest, rfl, h.symm, ?_⟩
    intro t ht hty
    rw [← h] at ht
    rcases List.mem_cons.1 ht with rfl | hm
    · cases hty
    · obtain ⟨u, _, rfl⟩ := List.mem_map.1 hm
      simp [Token.shift]

/-- Witness of C20: `// a`, two newlines, `b` gives the Comment with span (0,5)
and the Identifier `b` with span (6,6). -/
theorem Tokenise_comment_blank_lines_witness :
    Tokenise ['/', '/', ' ', 'a', '\n', '\n', 'b'] = Except.ok
      [⟨['/', '/', ' ', 'a', '\n', '\n'], TokenType.kComment, (0, 5)⟩,
       ⟨['b'], TokenType.kIdentifier, (6, 6)⟩] ∧
    ∃ rest, Tokenise ['b'] = Except.ok rest ∧
      ([⟨['/', '/', ' ', 'a', '\n', '\n'], TokenType.kComment, (0, 5)⟩,
        ⟨['b'], TokenType.kIdentifier, (6, 6)⟩] : List Token) =
      ⟨'/' :: '/' :: ([' ', 'a'] ++ List.replicate 2 '\n'), TokenType.kComment,
          (0, [' ', 'a'].length + 2 + 1)⟩ ::
        rest.map (Token.shift ([' ', 'a'].length + 2 + 2)) ∧
      ∀ t ∈ ([⟨['/', '/', ' ', 'a', '\n', '\n'], TokenType.kComment, (0, 5)⟩,
        ⟨['b'], TokenType.kIdentifier, (6, 6)⟩] : List Token),
        t.type = TokenType.kNewline → [' ', 'a'].length + 2 + 2 ≤ t.position.1 :=
  ⟨rfl, Tokenise_comment_blank_lines [' ', 'a'] ['b'] 2 _ (by decide) (by decide)
    (Or.inr (by decide)) rfl⟩


namespace Lexer

theorem body_of_incompatible (lx : Lexer) (a b : TokenType) (nx : Str) (hs : lx.skips = false)
    (hc : GetType lx.CurrentState = some a) (hn : lx.NextState = some nx)
    (ho : utils.AnyOfCommentPair (fun pair => decide (pair.1 = nx)) = false)
    (hx : GetType nx = some b)
    (hab : ¬ (a = b ∨ (utils.Includes kIdentifierBranches a = true ∧
      utils.Includes kIdentifierBranches b = true))) :
    lx.body = Except.ok (lx.dispatch lx.CurrentState a) := by
  simp only [body, hs, hc, hn, ho, hx, Bool.false_eq_true, ↓reduceIte]
  rw [if_neg hab]

/-- The lookahead window is the candidate and one more character. -/
theorem current_of_next (lx : Lexer) (nx : Str)
    (hle : lx.last_position_ ≤ lx.current_position_) (hn : lx.NextState = some nx) :
    lx.CurrentState = nx.take (nx.length - 1) ∧
      nx.length = lx.current_position_ - lx.last_position_ + 2 := by
  have hlt : lx.current_position_ + 1 < lx.buffer_.length := by
    rw [← nextState_isSome_iff, hn]; rfl
  rw [nextState_eq lx hlt] at hn
  injection hn with hn
  subst hn
  have hlen : ((lx.buffer_.drop lx.last_position_).take
      (lx.current_position_ + 1 - lx.last_position_ + 1)).length =
      lx.current_position_ - lx.last_position_ + 2 := by
    rw [List.length_take, List.length_drop]
    omega
  refine ⟨?_, hlen⟩
  rw [hlen, currentState_eq lx (by omega), List.take_take]
  congr 1
  omega

theorem advance_currentState (lx : Lexer) (nx : Str) (hn : lx.NextState = some nx) :
    lx.advance.CurrentState = nx := by
  have hlt : lx.current_position_ + 1 < lx.buffer_.length := by
    rw [← nextState_isSome_iff, hn]; rfl
  rw [nextState_eq lx hlt] at hn
  injection hn with hn
  subst hn
  rw [currentState_eq _ (by simpa [advance] using hlt)]
  rfl

/-- With `true` or `false` as the lookahead window the candidate `tru` or `fals`
is dispatched as an Identifier. -/
theorem body_before_bool (lx : Lexer) (nx : Str) (hs : lx.skips = false)
    (hle : lx.last_position_ ≤ lx.current_position_) (hn : lx.NextState = some nx)
    (hbool : nx = ['t', 'r', 'u', 'e'] ∨ nx = ['f', 'a', 'l', 's', 'e']) :
    lx.body = Except.ok (lx.dispatch lx.CurrentState TokenType.kIdentifier) := by
  have hcur := (current_of_next lx nx hle hn).1
  rcases hbool with rfl | rfl
  · apply body_of_incompatible lx TokenType.kIdentifier TokenType.kLiteral _ hs _ hn
    · decide
    · decide
    · decide
    · rw [hcur]; decide
  · apply body_of_incompatible lx TokenType.kIdentifier TokenType.kLiteral _ hs _ hn
    · decide
    · decide
    · decide
    · rw [hcur]; decide

end Lexer


/-- No dispatched token is `true` or `false`: the candidate never becomes one of
them, because the scan dispatches `tru` and `fals` one character earlier. -/
theorem Lexer.loop_no_bool (fuel : Nat) : ∀ lx lx2 : Lexer, lx.Inv →
    (∀ t ∈ lx.collected_, t.value ≠ ['t', 'r', 'u', 'e'] ∧ t.value ≠ ['f', 'a', 'l', 's', 'e']) →
    (lx.last_position_ < lx.current_position_ → lx.current_position_ < lx.buffer_.length →
      lx.CurrentState ≠ ['t', 'r', 'u', 'e'] ∧ lx.CurrentState ≠ ['f', 'a', 'l', 's', 'e']) →
    Lexer.loop fuel lx = Except.ok lx2 →
    ∀ t ∈ lx2.collected_, t.value ≠ ['t', 'r', 'u', 'e'] ∧ t.value ≠ ['f', 'a', 'l', 's', 'e'] := by
  induction fuel with
  | zero =>
    intro lx lx2 _ hcol _ h
    simp only [Lexer.loop] at h
    cases h
    exact hcol
  | succ fuel ih =>
    intro lx lx2 hinv hcol hpend h
    by_cases hc : lx.current_position_ < lx.buffer_.length
    · simp only [Lexer.loop, hc, ↓reduceIte] at h
      rcases Lexer.body_cases lx with ⟨_, hb⟩ | ⟨hs, hn, hb⟩ | ⟨_, ty, _, hb⟩ | ⟨_, _, _, hb⟩
      · rw [hb] at h
        refine ih lx.update_pos.advance lx2 (Lexer.inv_skip lx hinv hc hb) hcol ?_ h
        intro hlt
        simp [Lexer.update_pos, Lexer.advance] at hlt
      · have hinv2 := Lexer.inv_keep lx hinv hc hs hn hb
        obtain ⟨nx, hnx⟩ := Option.isSome_iff_exists.1 hn
        rw [hb] at h
        refine ih lx.advance lx2 hinv2 hcol ?_ h
        intro _ _
        rw [Lexer.advance_currentState lx nx hnx]
        by_contra hbool
        have hbool2 : nx = ['t', 'r', 'u', 'e'] ∨ nx = ['f', 'a', 'l', 's', 'e'] := by
          by_contra hno
          exact hbool ⟨fun h1 => hno (Or.inl h1), fun h2 => hno (Or.inr h2)⟩
        have hd := Lexer.body_before_bool lx nx hs hinv.le hnx hbool2
        rw [hb] at hd
        injection hd with hd
        have hl := congrArg (fun l => l.collected_.length) hd
        simp [Lexer.dispatch, Lexer.update_pos] at hl
      · have hinv2 := Lexer.inv_dispatch lx hinv hc _ ty hb
        rw [hb] at h
        refine ih (lx.dispatch lx.CurrentState ty).advance lx2 hinv2 ?_ ?_ h
        · intro t ht
          simp only [Lexer.dispatch, Lexer.update_pos, Lexer.advance, List.mem_append,
            List.mem_singleton] at ht
          rcases ht with ht | rfl
          · exact hcol t ht
          · rcases Nat.eq_or_lt_of_le hinv.le with heq | hlt
            · have hlen : lx.CurrentState.length ≤ 1 := by
                rw [Lexer.currentState_eq lx hc, heq, Nat.sub_self]
                exact List.length_take_le _ _
              constructor <;>
              · intro hv
                simp only at hv
                rw [hv] at hlen
                simp at hlen
            · exact hpend hlt hc
        · intro hlt
          simp [Lexer.dispatch, Lexer.update_pos, Lexer.advance] at hlt
      · rw [hb] at h
        cases h
    · rw [Lexer.loop_done _ _ hc] at h
      cases h
      exact hcol

/-- C18 (no token `true` or `false`). No token returned by `Tokenise` has the
value `true` or `false`: `tru` is an Identifier, the window `true` a Literal, so
`tru` is dispatched before the `e`. On the buffer `true` the tokens are the
Identifier `tru` with span (0,2) and the Identifier `e` with span (3,3). -/
theorem Tokenise_no_bool_token :
    (∀ (buffer : Str) (toks : List Token), Tokenise buffer = Except.ok toks →
      ∀ t ∈ toks, t.value ≠ ['t', 'r', 'u', 'e'] ∧ t.value ≠ ['f', 'a', 'l', 's', 'e']) ∧
    GetType ['t', 'r', 'u'] = some TokenType.kIdentifier ∧
    GetType ['t', 'r', 'u', 'e'] = some TokenType.kLiteral ∧
    GetType ['f', 'a', 'l', 's'] = some TokenType.kIdentifier ∧
    GetType ['f', 'a', 'l', 's', 'e'] = some TokenType.kLiteral ∧
    Tokenise ['t', 'r', 'u', 'e'] = Except.ok
      [⟨['t', 'r', 'u'], TokenType.kIdentifier, (0, 2)⟩,
       ⟨['e'], TokenType.kIdentifier, (3, 3)⟩] := by
  refine ⟨?_, by decide, by decide, by decide, by decide, rfl⟩
  intro buffer toks h
  obtain ⟨lx, hl, rfl⟩ := (tokenise_ok_iff buffer toks).1 h
  exact Lexer.loop_no_bool buffer.length (Lexer.new buffer) lx (Lexer.inv_new buffer)
    (by simp [Lexer.new]) (by simp [Lexer.new]) hl

/-- Witness of C18 on the buffer `false`: the tokens `fals` and `e`, none of them
`true` or `false`. -/
theorem Tokenise_no_bool_token_witness :
    Tokenise ['f', 'a', 'l', 's', 'e'] = Except.ok
      [⟨['f', 'a', 'l', 's'], TokenType.kIdentifier, (0, 3)⟩,
       ⟨['e'], TokenType.kIdentifier, (4, 4)⟩] ∧
    ∀ t ∈ ([⟨['f', 'a', 'l', 's'], TokenType.kIdentifier, (0, 3)⟩,
       ⟨['e'], TokenType.kIdentifier, (4, 4)⟩] : List Token),
      t.value ≠ ['t', 'r', 'u', 'e'] ∧ t.value ≠ ['f', 'a', 'l', 's', 'e'] :=
  ⟨rfl, Tokenise_no_bool_token.1 ['f', 'a', 'l', 's', 'e'] _ rfl⟩


theorem Lexer.body_of_error (lx : Lexer) (hs : lx.skips = false)
    (hc : GetType lx.CurrentState = none) (hn : lx.NextState = none) :
    lx.body = Except.error lx.CurrentState := by
  simp [Lexer.body, hs, hc, hn]

/-- C21 (an unterminated line comment is fatal). For a body `s` without a newline
`Tokenise` on `//` followed by `s` returns no token list: it fails with the
whole buffer as the undefined token. -/
theorem Tokenise_unterminated_comment (s : Str) (hs : '\n' ∉ s) :
    Tokenise ('/' :: '/' :: s) = Except.error ('/' :: '/' :: s) ∧
    ∀ toks, Tokenise ('/' :: '/' :: s) ≠ Except.ok toks := by
  have hmain : Tokenise ('/' :: '/' :: s) = Except.error ('/' :: '/' :: s) := by
    have hreach := loop_comment_body s [] hs (s.length + 1) (by omega) (by simp)
    simp only [List.append_nil] at hreach
    obtain ⟨lx, hl, _, _, _, ht⟩ := tokenise_last ('/' :: '/' :: s) (by simp)
    have e : ('/' :: '/' :: s).length - 1 = s.length + 1 := by simp
    rw [e, hreach] at hl
    cases hl
    rw [ht]
    have hc : s.length + 1 < ('/' :: '/' :: s).length := by simp
    have hcur : (Lexer.mk ('/' :: '/' :: s) 0 (s.length + 1) []).CurrentState =
        '/' :: '/' :: s := by
      rw [Lexer.currentState_eq _ hc]
      simp
    rw [Lexer.body_of_error _ (Lexer.skips_false_of_ne _ (by simp))
      (by rw [hcur, getType_comment_line, if_neg (getLast?_ne_of_not_mem s '\n' hs)])
      (by rw [Lexer.nextState_eq_none_iff]; simp), hcur]
  refine ⟨hmain, ?_⟩
  intro toks h
  rw [hmain] at h
  cases h

/-- Witness of C21: the buffer `// a` with no final newline fails with `// a`. -/
theorem Tokenise_unterminated_comment_witness :
    '\n' ∉ ([' ', 'a'] : Str) ∧
    Tokenise ['/', '/', ' ', 'a'] = Except.error ['/', '/', ' ', 'a'] :=
  ⟨by decide, (Tokenise_unterminated_comment [' ', 'a'] (by decide)).1⟩

end lexer

end sundae
